import Mathlib

/-!
# Empower: run-time typed variables inside a byte image

A shallow embedding of `source/Empower/Empower.h` (class `emp::Empower` with its nested
classes `MemoryImage`, `Var`, `VarInfo`, `TypeInfo`) and of the symbol functions of
`hardware/InstLib.h`, followed by theorems about the declare / resolve / copy / move /
teardown operations and about the instruction symbols.

Modelling conventions.

* `size_t` values are natural numbers.  The only arithmetic in the file is
  `mem_start + mem_size` on buffer lengths, which are bounded by the address space, so no
  wrap-around is modelled.
* A template argument `T` is a `HostType`: the identity key `GetTypeValue<T>()` (header
  `meta/TypeID.h`), the `typeid` name and `sizeof(T)`.  `std::decay` has already been
  applied: `NewVar` deduces `T` from a `const T &` and `Restore` returns a `T &`.
* An object of type `T` occupies `sizeof(T)` bytes of an image, its object representation.
  The copy constructor and the copy assignment operator are those of `T`: a `HostType`
  carries the representation that `T(const T &)` builds from the representation of its
  argument, the representation that `operator=` leaves in the target, and the value that a
  representation stands for (for a text type the characters, not the address of the block
  that holds them).  The destructor leaves the bytes alone.  Every run of a copy constructor,
  of an assignment operator and of a destructor of a host object is appended to a log of
  `Event`s, which is what a host type instrumented with call counters observes.
* Functions with side effects take the state they read and return the state they leave.
  The `Empower` instance an `empower_ptr` designates is passed explicitly.
* Indexing a vector outside its bounds and dereferencing a null pointer are undefined in the
  source; the embedding returns `Fault.undefined` for an index outside `vars` or `types` and
  for a null `empower_ptr`.  Bytes outside an image buffer do not exist: reading there
  yields no bytes and storing there stores nothing.
-/

namespace emp

/-- The template argument of `GetTypeID<T>`, `NewVar<T>` and `Restore<T>`. -/
structure HostType where
  /-- The value of `GetTypeValue<base_t>()`. -/
  type_value : Nat
  /-- The value of `typeid(base_t).name()`. -/
  type_name : String
  /-- The value of `sizeof(base_t)`. -/
  size_of : Nat
  /-- The copy constructor `T(const T &)`: the representation of the new object, from the
  representation of the argument. -/
  copy_construct : List Nat → List Nat
  /-- The copy assignment `target = source`: the representation the target has afterwards,
  from the representation it had and the representation of the source. -/
  copy_assign : List Nat → List Nat → List Nat
  /-- The value that a representation stands for. -/
  value : List Nat → List Nat

/-- The requirements on a host type that the spec names copy-constructible and
copy-assignable: a copy and the target of an assignment are objects of the type, of
`sizeof(T)` bytes, whose value is the value of the source. -/
structure HostType.Copyable (T : HostType) : Prop where
  construct_size : ∀ source : List Nat, source.length = T.size_of →
    (T.copy_construct source).length = T.size_of
  construct_value : ∀ source : List Nat, source.length = T.size_of →
    T.value (T.copy_construct source) = T.value source
  assign_size : ∀ target source : List Nat, target.length = T.size_of →
    source.length = T.size_of → (T.copy_assign target source).length = T.size_of
  assign_value : ∀ target source : List Nat, target.length = T.size_of →
    source.length = T.size_of → T.value (T.copy_assign target source) = T.value source

/-- A run of a special member function of a host object placed at `mem_pos` of an image. -/
inductive Event where
  /-- The copy constructor `T(const T &)` ran (placement new). -/
  | construct (T : HostType) (mem_pos : Nat)
  /-- The copy assignment operator of `T` ran. -/
  | assign (T : HostType) (mem_pos : Nat)
  /-- The destructor of `T` ran. -/
  | destruct (T : HostType) (mem_pos : Nat)

/-- The ways an operation stops without a result. -/
inductive Fault where
  /-- Undefined in the source: index outside a vector, null pointer dereferenced, use of a
  member whose lifetime has ended. -/
  | undefined
  /-- An `emp_assert` failed. -/
  | assert_failed
deriving DecidableEq, Repr

/-- Modelled from the spec: the macro `emp_assert` of `tools/debug.h`, which is not among the
sources.  The spec makes a failed check of `GetTyped` "a fatal assertion": the operation stops
with `Fault.assert_failed`. -/
def emp_assert (cond : Bool) : Except Fault Unit :=
  if cond then .ok () else .error .assert_failed

/-- A `std::map<κ, ν>`, by what `find` answers for every key. -/
structure std_map (κ ν : Type) where
  /-- The result of `find(k)`: the mapped value, or `none` for `end()`. -/
  find : κ → Option ν

namespace std_map

/-- The empty map. -/
def empty {κ ν : Type} : std_map κ ν := ⟨fun _ => none⟩

/-- The statement `m[k] = v`. -/
def assign {κ ν : Type} [DecidableEq κ] (m : std_map κ ν) (k : κ) (v : ν) : std_map κ ν :=
  ⟨fun k2 => if k2 = k then some v else m.find k2⟩

end std_map

namespace Empower

/-- The type `byte_t = unsigned char`. -/
abbrev byte_t := Nat

/-- The constant `undefined_id = (size_t) -1`. -/
def undefined_id : Nat := 2 ^ 64 - 1

/-- A MemoryImage is a full set of variable values stored in an Empower instance.
`empower_ptr` is the address of the instance, `none` for `nullptr`. -/
structure MemoryImage where
  memory : List byte_t
  empower_ptr : Option Nat
deriving DecidableEq, Repr

namespace MemoryImage

/-- The constructor `MemoryImage(emp::Ptr<Empower> _ptr) : memory(), empower_ptr(_ptr)`. -/
def init (_ptr : Option Nat) : MemoryImage := { memory := [], empower_ptr := _ptr }

/-- The accessor `GetMemory()`. -/
def GetMemory (m : MemoryImage) : List byte_t := m.memory

/-- The read `GetRef<T>(pos)`: the object of type `T` that starts at byte `pos`. -/
def GetRef (T : HostType) (m : MemoryImage) (pos : Nat) : List byte_t :=
  (m.memory.drop pos).take T.size_of

/-- The accessor `size()`. -/
def size (m : MemoryImage) : Nat := m.memory.length

/-- The call `memory.resize(new_size)`: cut, or fill up with zero bytes. -/
def resize (m : MemoryImage) (new_size : Nat) : MemoryImage :=
  { m with memory := m.memory.take new_size ++ List.replicate (new_size - m.memory.length) 0 }

/-- A store through `GetPtr<T>(pos)` or `GetRef<T>(pos)`: the bytes of `obj` replace the
bytes from `pos` on.  The buffer keeps its length. -/
def store (m : MemoryImage) (pos : Nat) (obj : List byte_t) : MemoryImage :=
  { m with memory := (List.range m.memory.length).map fun i =>
      if pos ≤ i ∧ i < pos + obj.length then obj.getD (i - pos) 0 else m.memory.getD i 0 }

end MemoryImage

/-- A Var is an internal variable that has a run-time determined type (which is tracked).
The member `mem_ptr` (the image the handle is bound to) is not stored: the image is handed
to `Var.Restore` together with the Empower instance it points back to. -/
structure Var where
  info_id : Nat
  mem_pos : Nat
deriving DecidableEq, Repr

/-- Information about a single Empower variable. -/
structure VarInfo where
  type_id : Nat
  var_name : String
  mem_pos : Nat
deriving DecidableEq, Repr

/-- The type `cconstruct_fun_t`: `void(const VarInfo &, const MemoryImage &, MemoryImage &)`.
The target image travels with the log of host events. -/
abbrev cconstruct_fun_t :=
  VarInfo → MemoryImage → MemoryImage × List Event → MemoryImage × List Event

/-- The type `copy_fun_t`: `void(const VarInfo &, const MemoryImage &, MemoryImage &)`. -/
abbrev copy_fun_t :=
  VarInfo → MemoryImage → MemoryImage × List Event → MemoryImage × List Event

/-- The type `destruct_fun_t`: `void(const VarInfo &, MemoryImage &)`. -/
abbrev destruct_fun_t :=
  VarInfo → MemoryImage × List Event → MemoryImage × List Event

/-- Information about a single type used in Empower.  The two converters are empty
(`none`) in every descriptor the source builds. -/
structure TypeInfo where
  type_id : Nat
  type_name : String
  mem_size : Nat
  cconstruct_fun : cconstruct_fun_t
  copy_fun : copy_fun_t
  destruct_fun : destruct_fun_t
  to_double : Option (Var → Float)
  to_string : Option (Var → String)

/-- The constructor `TypeInfo(_id, _name, _size, cc_fun, c_fun, d_fun)`. -/
def TypeInfo.init (_id : Nat) (_name : String) (_size : Nat) (cc_fun : cconstruct_fun_t)
    (c_fun : copy_fun_t) (d_fun : destruct_fun_t) : TypeInfo :=
  { type_id := _id, type_name := _name, mem_size := _size, cconstruct_fun := cc_fun,
    copy_fun := c_fun, destruct_fun := d_fun, to_double := none, to_string := none }

end Empower

/-- The data members of class Empower, in their order of declaration. -/
structure Empower where
  memory : Empower.MemoryImage
  vars : List Empower.VarInfo
  types : List Empower.TypeInfo
  var_map : std_map String Nat
  type_map : std_map Nat Nat

namespace Empower

/-- The lambda `cconstruct_fun` of `GetTypeID<T>`: copy-construct, in `to_image`, the object
that `from_image` holds at the same position. -/
def cconstruct_lambda (T : HostType) : cconstruct_fun_t :=
  fun var_info from_image to_image =>
    let mem_pos := var_info.mem_pos
    (to_image.1.store mem_pos (T.copy_construct (from_image.GetRef T mem_pos)),
      to_image.2 ++ [Event.construct T mem_pos])

/-- The lambda `copy_fun` of `GetTypeID<T>`: assign the object of `from_image` to the one of
`to_image` at the same position. -/
def copy_lambda (T : HostType) : copy_fun_t :=
  fun var_info from_image to_image =>
    let mem_pos := var_info.mem_pos
    (to_image.1.store mem_pos
        (T.copy_assign (to_image.1.GetRef T mem_pos) (from_image.GetRef T mem_pos)),
      to_image.2 ++ [Event.assign T mem_pos])

/-- The lambda `destruct_fun` of `GetTypeID<T>`: run the destructor in place. -/
def destruct_lambda (T : HostType) : destruct_fun_t :=
  fun var_info mem => (mem.1, mem.2 ++ [Event.destruct T var_info.mem_pos])

/-- The element `types[i]`. -/
def type_at (types : List TypeInfo) (i : Nat) : Except Fault TypeInfo :=
  match types[i]? with
  | some type => .ok type
  | none => .error .undefined

/-- When build a copy of a MemoryImage, we must make sure to properly construct each
variable. -/
def CopyConstruct (e : Empower) (from_image : MemoryImage)
    (to_image : MemoryImage × List Event) : Except Fault (MemoryImage × List Event) :=
  e.vars.foldlM (fun to_image v => do
    let type ← type_at e.types v.type_id
    pure (type.cconstruct_fun v from_image to_image)) to_image

/-- When deleting a MemoryImage, we must make sure to run the destructors on each internal
variable contained. -/
def Destruct (e : Empower) (image : MemoryImage × List Event) :
    Except Fault (MemoryImage × List Event) :=
  e.vars.foldlM (fun image v => do
    let type ← type_at e.types v.type_id
    pure (type.destruct_fun v image)) image

/-- The constructor `Empower() : memory(this), vars(), types(), var_map(), type_map()`;
`this` is the address of the new instance. -/
def init (this : Nat) : Empower :=
  { memory := MemoryImage.init (some this), vars := [], types := [],
    var_map := std_map.empty, type_map := std_map.empty }

/-- Convert a type (provided as a template argument) to its index in types vector.
If type is not already in Empower, add it. -/
def GetTypeID (T : HostType) (e : Empower) : Nat × Empower :=
  let type_hash := T.type_value
  let type_name := T.type_name
  match e.type_map.find type_hash with
  | some type_id => (type_id, e)
  | none =>
    let type_id := e.types.length
    let mem_size := T.size_of
    (type_id,
      { e with
        types := e.types ++ [TypeInfo.init type_id type_name mem_size
          (cconstruct_lambda T) (copy_lambda T) (destruct_lambda T)]
        type_map := e.type_map.assign type_hash type_id })

/-- The member function `NewVar<T>(name, value)`; `value` is the object representation of
the argument, `sizeof(T)` bytes, from which the placement new copy-constructs the variable. -/
def NewVar (T : HostType) (name : String) (value : List byte_t) (e : Empower)
    (log : List Event) : Except Fault (Var × Empower × List Event) :=
  let (type_id, e) := e.GetTypeID T
  match type_at e.types type_id with
  | .error f => .error f
  | .ok type_info =>
    let var_id := e.vars.length
    let mem_start := e.memory.size
    let vars := e.vars ++ [VarInfo.mk type_id name mem_start]
    let memory := e.memory.resize (mem_start + type_info.mem_size)
    let var_map := e.var_map.assign name var_id
    let memory := memory.store mem_start (T.copy_construct (value.take T.size_of))
    .ok (Var.mk var_id mem_start,
      { e with memory := memory, vars := vars, var_map := var_map },
      log ++ [Event.construct T mem_start])

/-- The member function `Var::Restore<T>()`.  `mem` is the image `mem_ptr` points to and `e`
the instance `mem.empower_ptr` points to; the result is the object referred to and the
instance as `GetTypeID<T>` leaves it. -/
def Var.Restore (T : HostType) (var : Var) (mem : MemoryImage) (e : Empower) :
    Except Fault (List byte_t) × Empower :=
  match mem.empower_ptr with
  | none => (.error .undefined, e)
  | some _ =>
    match e.vars[var.info_id]? with
    | none => (.error .undefined, e)
    | some info =>
      let (type_id, e) := e.GetTypeID T
      match emp_assert (info.type_id == type_id) with
      | .error f => (.error f, e)
      | .ok _ => (.ok (mem.GetRef T var.mem_pos), e)

/-- The copy constructor `MemoryImage(const MemoryImage & image)`; `e` is the instance
`image.empower_ptr` points to. -/
def MemoryImage.copy_construct (image : MemoryImage) (e : Empower) (log : List Event) :
    Except Fault (MemoryImage × List Event) :=
  let this : MemoryImage := { memory := [], empower_ptr := none }
  let this := this.resize image.memory.length
  let this := { this with empower_ptr := image.empower_ptr }
  match this.empower_ptr with
  | none => .error .undefined
  | some _ => e.CopyConstruct image (this, log)

/-- The move constructor `MemoryImage(MemoryImage && image)`: the new image, and `image` as
the move leaves it (its vector has been moved from and is empty). -/
def MemoryImage.move_construct (image : MemoryImage) : MemoryImage × MemoryImage :=
  let this : MemoryImage := { memory := [], empower_ptr := none }
  let this := { this with memory := image.memory }
  let image := { image with memory := [] }
  let this := { this with empower_ptr := image.empower_ptr }
  let image := { image with empower_ptr := none }
  (this, image)

/-- The destructor `~MemoryImage()`; `e` is the instance `empower_ptr` points to.  The result
is the log after the call. -/
def MemoryImage.destroy (image : MemoryImage) (e : Empower) (log : List Event) :
    Except Fault (List Event) :=
  match image.empower_ptr with
  | some _ => (e.Destruct (image, log)).map Prod.snd
  | none => .ok log

/-- The data members of class Empower, by name. -/
inductive Member where
  | memory
  | vars
  | types
  | var_map
  | type_map
deriving DecidableEq, Repr

/-- The data members in their order of declaration in the class body. -/
def member_declaration : List Member :=
  [Member.memory, Member.vars, Member.types, Member.var_map, Member.type_map]

/-- The destruction of one data member while the instance is torn down; `st.1` lists the members
whose lifetime has ended.  Only `memory` has a destructor with an effect of its own:
`~MemoryImage`, which for a non-null `empower_ptr` calls `Destruct`, and `Destruct` reads the
member `vars` and, for each of its elements, the member `types`. -/
def destroy_member (e : Empower) (st : List Member × List Event) (m : Member) :
    Except Fault (List Member × List Event) :=
  match m with
  | Member.memory =>
    match e.memory.empower_ptr with
    | none => .ok (m :: st.1, st.2)
    | some _ =>
      if Member.vars ∈ st.1 then .error .undefined
      else if e.vars ≠ [] ∧ Member.types ∈ st.1 then .error .undefined
      else (e.memory.destroy e st.2).map fun log => (m :: st.1, log)
  | _ => .ok (m :: st.1, st.2)

/-- The destruction of the data members in the given order. -/
def destroy_members (order : List Member) (e : Empower) (log : List Event) :
    Except Fault (List Event) :=
  (order.foldlM (destroy_member e) ([], log)).map Prod.snd

/-- The destructor `~Empower() { ; }`: the body is empty, then the language destroys the data
members in the reverse order of their declaration.  The result is the log after the call. -/
def destroy (e : Empower) (log : List Event) : Except Fault (List Event) :=
  destroy_members member_declaration.reverse e log

/-- The operations on an instance: `GetTypeID<T>()`, `NewVar<T>(name, value)`, and
`Restore<T>()` on a handle bound to the default image. -/
inductive Op where
  | GetTypeID (T : HostType)
  | NewVar (T : HostType) (name : String) (value : List byte_t)
  | Restore (T : HostType) (var : Var)

/-- One operation, on the instance and the log of host events. -/
def Op.apply (op : Op) (s : Empower × List Event) : Except Fault (Empower × List Event) :=
  match op with
  | Op.GetTypeID T => .ok ((s.1.GetTypeID T).2, s.2)
  | Op.NewVar T name value =>
    match s.1.NewVar T name value s.2 with
    | .ok r => .ok r.2
    | .error f => .error f
  | Op.Restore T var =>
    match Var.Restore T var s.1.memory s.1 with
    | (.ok _, e) => .ok (e, s.2)
    | (.error f, _) => .error f

/-- A sequence of operations, stopping at the first fault. -/
def run (ops : List Op) (s : Empower × List Event) : Except Fault (Empower × List Event) :=
  ops.foldlM (fun s op => op.apply s) s

/-- The states an instance can be in: those a sequence of operations leads to from a freshly
constructed instance. -/
def Reachable (e : Empower) : Prop :=
  ∃ (this : Nat) (ops : List Op) (log : List Event),
    run ops (Empower.init this, []) = .ok (e, log)

/-- The descriptor `types[type_id]` is the one `GetTypeID<T>` builds for `T`. -/
def Describes (e : Empower) (type_id : Nat) (T : HostType) : Prop :=
  e.types[type_id]? = some (TypeInfo.init type_id T.type_name T.size_of
    (cconstruct_lambda T) (copy_lambda T) (destruct_lambda T))

/-- The size `types[v.type_id].mem_size` of the descriptor that owns a catalog entry. -/
def var_size (e : Empower) (v : VarInfo) : Nat :=
  match e.types[v.type_id]? with
  | some type => type.mem_size
  | none => 0

/-- An image buffer built against the catalog: every entry has a descriptor and lies inside
the buffer. -/
def fits (e : Empower) (image : MemoryImage) : Bool :=
  e.vars.all fun v => (e.types[v.type_id]?).isSome && decide (v.mem_pos + e.var_size v ≤ image.size)

/-- Modelled from the spec: the error taxonomy of section 7.  The source has no error values;
`TypeMismatch` is its `emp_assert` in `Restore`. -/
inductive Error where
  | DuplicateName
  | UnknownVariable
  | TypeMismatch
deriving DecidableEq, Repr

/-- Modelled from the spec: `Lookup(name) -> var_id`, which "fails with `UnknownVariable` if
absent".  The source keeps the map `var_map` from names to indices into `vars`, written by
`NewVar`, and has no member function that reads it; the lookup is `var_map.find(name)`.  It
returns the instance as it leaves it. -/
def Lookup (name : String) (e : Empower) : Except Error Nat × Empower :=
  match e.var_map.find name with
  | some var_id => (.ok var_id, e)
  | none => (.error Error.UnknownVariable, e)

end Empower

/-! ### The instruction library (`hardware/InstLib.h`) -/

namespace InstLib

/-- The function `static constexpr char GetSymbol(size_t id)`.  A `char` is its code; the
sum is taken in `size_t` and narrowed to the 8 bits of a `char`. -/
def GetSymbol (id : Nat) : Nat :=
  if id < 26 then ('a'.toNat + id) % 2 ^ 64 % 256
  else if id < 52 then ('A'.toNat + (id - 26)) % 2 ^ 64 % 256
  else if id < 62 then ('0'.toNat + (id - 52)) % 2 ^ 64 % 256
  else '+'.toNat

/-- The function `static constexpr size_t GetID(char symbol)`, on the code of the symbol. -/
def GetID (symbol : Nat) : Nat :=
  if symbol ≥ 'a'.toNat ∧ symbol ≤ 'z'.toNat then symbol - 'a'.toNat
  else if symbol ≥ 'A'.toNat ∧ symbol ≤ 'Z'.toNat then symbol - 'A'.toNat + 26
  else if symbol ≥ '0'.toNat ∧ symbol ≤ '9'.toNat then symbol - '0'.toNat + 52
  else 62

/-- The codes of the ASCII letters and digits. -/
def letter_or_digit (c : Nat) : Prop :=
  ('a'.toNat ≤ c ∧ c ≤ 'z'.toNat) ∨ ('A'.toNat ≤ c ∧ c ≤ 'Z'.toNat) ∨
    ('0'.toNat ≤ c ∧ c ≤ '9'.toNat)

end InstLib

namespace Empower

/-! ### Example host types and scenarios -/

/-- A 4-byte integer type: a copy has the bytes of its source, which are its value. -/
def int_t : HostType :=
  { type_value := 1, type_name := "i", size_of := 4, copy_construct := fun source => source,
    copy_assign := fun _ source => source, value := fun rep => rep }

/-- A text type that occupies 8 bytes: the address of the block that holds the characters,
then the length and the characters.  A copy gets a block of its own, at another address; the
target of an assignment keeps its block; the value is the length and the characters. -/
def text_t : HostType :=
  { type_value := 2, type_name := "Ss", size_of := 8,
    copy_construct := fun source => (source.headD 0 + 1) % 256 :: source.tail,
    copy_assign := fun target source => target.headD 0 :: source.tail,
    value := fun rep => rep.tail }

/-- An 8-byte floating point type, which no scenario declares. -/
def double_t : HostType :=
  { type_value := 3, type_name := "d", size_of := 8, copy_construct := fun source => source,
    copy_assign := fun _ source => source, value := fun rep => rep }

/-- The object representation of the integer 5. -/
def five : List byte_t := [5, 0, 0, 0]

/-- An object representation of the text "hi", with its block at address 16. -/
def hi : List byte_t := [16, 2, 104, 105, 0, 0, 0, 0]

/-- The result of a run, or the fresh instance when the run stops with a fault. -/
def state_after (ops : List Op) : Empower :=
  match run ops (Empower.init 0, []) with
  | .ok s => s.1
  | .error _ => Empower.init 0

/-- Scenario A: `Declare("x", 5)` then `Declare("y", "hi")`. -/
def scenario_A_ops : List Op := [Op.NewVar int_t "x" five, Op.NewVar text_t "y" hi]

/-- The instance after Scenario A. -/
def scenario_A : Empower := state_after scenario_A_ops

/-- Scenario B, first step: `Declare("x", 1)`. -/
def scenario_B_ops : List Op := [Op.NewVar int_t "x" [1, 0, 0, 0]]

/-- The instance after the first step of Scenario B. -/
def scenario_B : Empower := state_after scenario_B_ops

/-- Scenario B, second step: `Declare("x", 2)` on the instance that has an "x". -/
def scenario_B_redeclare : Except Fault (Var × Empower × List Event) :=
  scenario_B.NewVar int_t "x" [2, 0, 0, 0] []

/-- The invariant of the reachable states: the registry, the key map, the catalog, the name
map and the default image agree with each other. -/
structure Inv (e : Empower) : Prop where
  /-- The key map points into the registry. -/
  map_lt : ∀ k id, e.type_map.find k = some id → id < e.types.length
  /-- Every descriptor was built by `GetTypeID` for a host type, whose key is the only key
  mapped to the descriptor. -/
  described : ∀ i, i < e.types.length →
    ∃ T, e.Describes i T ∧ ∀ k, e.type_map.find k = some i ↔ k = T.type_value
  /-- Every catalog entry has a descriptor. -/
  var_types : ∀ v ∈ e.vars, v.type_id < e.types.length
  /-- Every offset is the sum of the sizes of the entries before it. -/
  offsets : ∀ i (hi : i < e.vars.length),
    (e.vars.get ⟨i, hi⟩).mem_pos = ((e.vars.take i).map e.var_size).sum
  /-- The default image is as long as the sizes of all entries together. -/
  length : e.memory.size = (e.vars.map e.var_size).sum
  /-- The name map points at entries of that name. -/
  names : ∀ name id, e.var_map.find name = some id →
    ∃ v, e.vars[id]? = some v ∧ v.var_name = name
  /-- Every name in the catalog is in the name map. -/
  named : ∀ v ∈ e.vars, e.var_map.find v.var_name ≠ none
  /-- The default image points back to its instance. -/
  live : e.memory.empower_ptr ≠ none

/-! ## Lemmas -/

theorem type_at_eq_ok {types : List TypeInfo} {i : Nat} {type : TypeInfo}
    (h : types[i]? = some type) : type_at types i = .ok type := by
  simp [type_at, h]

theorem resize_size (m : MemoryImage) (n : Nat) : (m.resize n).size = n := by
  simp [MemoryImage.resize, MemoryImage.size]
  omega

theorem resize_ptr (m : MemoryImage) (n : Nat) : (m.resize n).empower_ptr = m.empower_ptr := rfl

theorem store_size (m : MemoryImage) (pos : Nat) (obj : List byte_t) :
    (m.store pos obj).size = m.size := by
  simp [MemoryImage.store, MemoryImage.size]

theorem store_ptr (m : MemoryImage) (pos : Nat) (obj : List byte_t) :
    (m.store pos obj).empower_ptr = m.empower_ptr := rfl

/-! ### GetTypeID -/

theorem GetTypeID_found {e : Empower} {T : HostType} {id : Nat}
    (h : e.type_map.find T.type_value = some id) : e.GetTypeID T = (id, e) := by
  simp [GetTypeID, h]

theorem GetTypeID_fresh {e : Empower} {T : HostType}
    (h : e.type_map.find T.type_value = none) :
    e.GetTypeID T = (e.types.length,
      { e with
        types := e.types ++ [TypeInfo.init e.types.length T.type_name T.size_of
          (cconstruct_lambda T) (copy_lambda T) (destruct_lambda T)]
        type_map := e.type_map.assign T.type_value e.types.length }) := by
  simp [GetTypeID, h]

theorem GetTypeID_vars (e : Empower) (T : HostType) : (e.GetTypeID T).2.vars = e.vars := by
  cases h : e.type_map.find T.type_value with
  | none => rw [GetTypeID_fresh h]
  | some id => rw [GetTypeID_found h]

theorem GetTypeID_memory (e : Empower) (T : HostType) :
    (e.GetTypeID T).2.memory = e.memory := by
  cases h : e.type_map.find T.type_value with
  | none => rw [GetTypeID_fresh h]
  | some id => rw [GetTypeID_found h]

theorem GetTypeID_var_map (e : Empower) (T : HostType) :
    (e.GetTypeID T).2.var_map = e.var_map := by
  cases h : e.type_map.find T.type_value with
  | none => rw [GetTypeID_fresh h]
  | some id => rw [GetTypeID_found h]

/-- After `GetTypeID<T>` the key of `T` is mapped to the id returned. -/
theorem GetTypeID_find (e : Empower) (T : HostType) :
    (e.GetTypeID T).2.type_map.find T.type_value = some (e.GetTypeID T).1 := by
  cases h : e.type_map.find T.type_value with
  | none => rw [GetTypeID_fresh h]; simp [std_map.assign]
  | some id => rw [GetTypeID_found h]; exact h

/-- The registry only grows at its end. -/
theorem GetTypeID_types (e : Empower) (T : HostType) :
    ∃ added, (e.GetTypeID T).2.types = e.types ++ added := by
  cases h : e.type_map.find T.type_value with
  | none => rw [GetTypeID_fresh h]; exact ⟨_, rfl⟩
  | some id => rw [GetTypeID_found h]; exact ⟨[], by simp⟩

/-- A key that is mapped stays mapped to the same id. -/
theorem GetTypeID_keeps (e : Empower) (T : HostType) {k id : Nat}
    (hk : e.type_map.find k = some id) : (e.GetTypeID T).2.type_map.find k = some id := by
  cases h : e.type_map.find T.type_value with
  | some id2 => rw [GetTypeID_found h]; exact hk
  | none =>
    rw [GetTypeID_fresh h]
    have hne : k ≠ T.type_value := by
      intro heq
      rw [heq, h] at hk
      cases hk
    simp [std_map.assign, hne, hk]

theorem var_size_append {e e2 : Empower} {added : List TypeInfo}
    (ht : e2.types = e.types ++ added) {v : VarInfo} (hv : v.type_id < e.types.length) :
    e2.var_size v = e.var_size v := by
  simp [var_size, ht, List.getElem?_append_left hv]

theorem Describes_append {e e2 : Empower} {added : List TypeInfo}
    (ht : e2.types = e.types ++ added) {i : Nat} {T : HostType} (h : e.Describes i T) :
    e2.Describes i T := by
  unfold Describes at h ⊢
  have hi : i < e.types.length := by
    rcases Nat.lt_or_ge i e.types.length with hlt | hge
    · exact hlt
    · rw [List.getElem?_eq_none hge] at h
      cases h
  rw [ht, List.getElem?_append_left hi]
  exact h

theorem Describes_size {e : Empower} {v : VarInfo} {T : HostType}
    (h : e.Describes v.type_id T) : e.var_size v = T.size_of := by
  unfold Describes at h
  simp [var_size, h, TypeInfo.init]

theorem map_var_size_congr {e e2 : Empower} {added : List TypeInfo}
    (ht : e2.types = e.types ++ added) (vs : List VarInfo)
    (hv : ∀ v ∈ vs, v.type_id < e.types.length) :
    vs.map e2.var_size = vs.map e.var_size := by
  apply List.map_congr_left
  intro v hmem
  exact var_size_append ht (hv v hmem)

/-! ### The invariant holds in every reachable state -/

theorem inv_init (this : Nat) : Inv (Empower.init this) where
  map_lt := by intro k id h; simp [Empower.init, std_map.empty] at h
  described := by intro i hi; simp [Empower.init] at hi
  var_types := by intro v hv; simp [Empower.init] at hv
  offsets := by intro i hi; simp [Empower.init] at hi
  length := by simp [Empower.init, MemoryImage.init, MemoryImage.size]
  names := by intro name id h; simp [Empower.init, std_map.empty] at h
  named := by intro v hv; simp [Empower.init] at hv
  live := by simp [Empower.init, MemoryImage.init]

theorem inv_GetTypeID {e : Empower} (T : HostType) (hinv : Inv e) : Inv (e.GetTypeID T).2 := by
  cases h : e.type_map.find T.type_value with
  | some id => rw [GetTypeID_found h]; exact hinv
  | none =>
    rw [GetTypeID_fresh h]
    have ht : ({ e with
        types := e.types ++ [TypeInfo.init e.types.length T.type_name T.size_of
          (cconstruct_lambda T) (copy_lambda T) (destruct_lambda T)]
        type_map := e.type_map.assign T.type_value e.types.length } : Empower).types
        = e.types ++ [TypeInfo.init e.types.length T.type_name T.size_of
          (cconstruct_lambda T) (copy_lambda T) (destruct_lambda T)] := rfl
    refine ⟨?_, ?_, ?_, ?_, ?_, hinv.names, hinv.named, hinv.live⟩
    · intro k id hk
      simp only [std_map.assign] at hk
      simp only [List.length_append, List.length_singleton]
      split at hk
      · cases hk; omega
      · have := hinv.map_lt k id hk; omega
    · intro i hi
      simp only [List.length_append, List.length_singleton] at hi
      rcases Nat.lt_or_ge i e.types.length with hlt | hge
      · obtain ⟨T2, hd, hk⟩ := hinv.described i hlt
        refine ⟨T2, Describes_append ht hd, ?_⟩
        intro k
        simp only [std_map.assign]
        constructor
        · intro hf
          split at hf
          · cases hf; omega
          · exact (hk k).1 hf
        · intro hkeq
          have hfind : e.type_map.find k = some i := (hk k).2 hkeq
          have hne : k ≠ T.type_value := by
            intro heq
            rw [heq, h] at hfind
            cases hfind
          simp [hne, hfind]
      · have hi2 : i = e.types.length := by omega
        subst hi2
        refine ⟨T, ?_, ?_⟩
        · simp [Describes]
        · intro k
          simp only [std_map.assign]
          constructor
          · intro hf
            split at hf
            · assumption
            · have := hinv.map_lt k _ hf; omega
          · intro hkeq
            simp [hkeq]
    · intro v hv
      have := hinv.var_types v hv
      simp only [List.length_append, List.length_singleton]
      omega
    · intro i hi
      have hcongr := map_var_size_congr ht (e.vars.take i)
        (fun v hv => hinv.var_types v (List.mem_of_mem_take hv))
      simp only at hcongr ⊢
      rw [hcongr]
      exact hinv.offsets i hi
    · have hcongr := map_var_size_congr ht e.vars hinv.var_types
      simp only at hcongr ⊢
      rw [hcongr]
      exact hinv.length

theorem GetTypeID_lt {e : Empower} (T : HostType) (hinv : Inv e) :
    (e.GetTypeID T).1 < (e.GetTypeID T).2.types.length :=
  (inv_GetTypeID T hinv).map_lt _ _ (GetTypeID_find e T)

/-! ### NewVar -/

/-- What `NewVar` returns when the descriptor of the type exists. -/
theorem NewVar_eq (T : HostType) (name : String) (value : List byte_t) (e : Empower)
    (log : List Event) {type_info : TypeInfo}
    (h : (e.GetTypeID T).2.types[(e.GetTypeID T).1]? = some type_info) :
    e.NewVar T name value log = .ok (Var.mk e.vars.length e.memory.size,
      { (e.GetTypeID T).2 with
        memory := (e.memory.resize (e.memory.size + type_info.mem_size)).store e.memory.size
          (T.copy_construct (value.take T.size_of))
        vars := e.vars ++ [VarInfo.mk (e.GetTypeID T).1 name e.memory.size]
        var_map := e.var_map.assign name e.vars.length },
      log ++ [Event.construct T e.memory.size]) := by
  simp only [NewVar, type_at, h, GetTypeID_vars, GetTypeID_memory, GetTypeID_var_map]

/-- A call of `NewVar` that returns found the descriptor of the type. -/
theorem NewVar_ok {T : HostType} {name : String} {value : List byte_t} {e : Empower}
    {log : List Event} {r : Var × Empower × List Event}
    (h : e.NewVar T name value log = .ok r) :
    ∃ type_info, (e.GetTypeID T).2.types[(e.GetTypeID T).1]? = some type_info := by
  cases ht : (e.GetTypeID T).2.types[(e.GetTypeID T).1]? with
  | some type_info => exact ⟨type_info, rfl⟩
  | none => simp [NewVar, type_at, ht] at h

theorem var_size_types {e e2 : Empower} (ht : e2.types = e.types) :
    e2.var_size = e.var_size := by
  funext v
  simp [var_size, ht]

/-- The catalog step of `NewVar` keeps the invariant. -/
theorem inv_declare_of {e e2 : Empower} (hinv : Inv e) {type_id : Nat} {type_info : TypeInfo}
    (ht : e.types[type_id]? = some type_info) (name : String) (obj : List byte_t)
    (hm : e2.memory
      = (e.memory.resize (e.memory.size + type_info.mem_size)).store e.memory.size obj)
    (hv : e2.vars = e.vars ++ [VarInfo.mk type_id name e.memory.size])
    (hty : e2.types = e.types)
    (hvm : e2.var_map = e.var_map.assign name e.vars.length)
    (htm : e2.type_map = e.type_map) : Inv e2 := by
  have hlt : type_id < e.types.length := by
    rcases Nat.lt_or_ge type_id e.types.length with hlt | hge
    · exact hlt
    · rw [List.getElem?_eq_none hge] at ht
      cases ht
  have hvs : e2.var_size = e.var_size := var_size_types hty
  refine ⟨?_, ?_, ?_, ?_, ?_, ?_, ?_, ?_⟩
  · rw [htm, hty]; exact hinv.map_lt
  · rw [hty, htm]
    intro i hi
    obtain ⟨T, hd, hk⟩ := hinv.described i hi
    refine ⟨T, ?_, hk⟩
    unfold Describes at hd ⊢
    rw [hty]
    exact hd
  · rw [hv, hty]
    intro v hmem
    simp only [List.mem_append, List.mem_singleton] at hmem
    rcases hmem with hmem | hmem
    · exact hinv.var_types v hmem
    · subst hmem; exact hlt
  · intro i hi
    rw [hvs]
    have hi2 : i < e.vars.length + 1 := by
      rw [hv] at hi
      simpa using hi
    rcases Nat.lt_or_ge i e.vars.length with hlt2 | hge
    · have h1 : e2.vars.get ⟨i, hi⟩ = e.vars.get ⟨i, hlt2⟩ := by
        simp [hv, List.getElem_append_left hlt2]
      have h2 : e2.vars.take i = e.vars.take i := by
        rw [hv, List.take_append_of_le_length (Nat.le_of_lt hlt2)]
      rw [h1, h2]
      exact hinv.offsets i hlt2
    · have hi3 : i = e.vars.length := by omega
      subst hi3
      have h1 : e2.vars.get ⟨e.vars.length, hi⟩ = VarInfo.mk type_id name e.memory.size := by
        simp [hv]
      have h2 : e2.vars.take e.vars.length = e.vars := by
        rw [hv, List.take_left']
        rfl
      rw [h1, h2]
      exact hinv.length
  · rw [hvs, hm, hv]
    simp only [store_size, resize_size, List.map_append, List.sum_append, List.map_cons,
      List.map_nil, List.sum_cons, List.sum_nil, Nat.add_zero]
    rw [hinv.length]
    simp [var_size, ht]
  · rw [hvm, hv]
    intro n id hf
    simp only [std_map.assign] at hf
    split at hf
    · rename_i hn
      cases hf
      exact ⟨VarInfo.mk type_id name e.memory.size, by simp, hn.symm⟩
    · obtain ⟨v, hv2, hname⟩ := hinv.names n id hf
      refine ⟨v, ?_, hname⟩
      have hid : id < e.vars.length := by
        rcases Nat.lt_or_ge id e.vars.length with h | h
        · exact h
        · rw [List.getElem?_eq_none h] at hv2
          cases hv2
      rw [List.getElem?_append_left hid]
      exact hv2
  · rw [hvm, hv]
    intro v hmem
    simp only [List.mem_append, List.mem_singleton] at hmem
    simp only [std_map.assign]
    split
    · simp
    · rcases hmem with hmem | hmem
      · exact hinv.named v hmem
      · rename_i hn
        subst hmem
        exact absurd rfl hn
  · rw [hm, store_ptr, resize_ptr]
    exact hinv.live

theorem inv_declare {e : Empower} (hinv : Inv e) {type_id : Nat} {type_info : TypeInfo}
    (ht : e.types[type_id]? = some type_info) (name : String) (obj : List byte_t) :
    Inv { e with
      memory := (e.memory.resize (e.memory.size + type_info.mem_size)).store e.memory.size obj
      vars := e.vars ++ [VarInfo.mk type_id name e.memory.size]
      var_map := e.var_map.assign name e.vars.length } :=
  inv_declare_of hinv ht name obj rfl rfl rfl rfl rfl

/-- In a state with the invariant `NewVar` returns. -/
theorem NewVar_total {e : Empower} (hinv : Inv e) (T : HostType) (name : String)
    (value : List byte_t) (log : List Event) :
    ∃ r, e.NewVar T name value log = .ok r := by
  have hlt := GetTypeID_lt T hinv
  have hsome : (e.GetTypeID T).2.types[(e.GetTypeID T).1]?
      = some ((e.GetTypeID T).2.types[(e.GetTypeID T).1]) := List.getElem?_eq_getElem hlt
  exact ⟨_, NewVar_eq T name value e log hsome⟩

theorem inv_NewVar {e : Empower} (hinv : Inv e) {T : HostType} {name : String}
    {value : List byte_t} {log : List Event} {r : Var × Empower × List Event}
    (h : e.NewVar T name value log = .ok r) : Inv r.2.1 := by
  obtain ⟨type_info, ht⟩ := NewVar_ok h
  rw [NewVar_eq T name value e log ht] at h
  cases h
  have h1 := inv_declare (inv_GetTypeID T hinv) ht name
    (T.copy_construct (value.take T.size_of))
  rw [GetTypeID_vars, GetTypeID_memory, GetTypeID_var_map] at h1
  exact h1

/-- The instance that `Restore<T>` leaves is the given one or the one `GetTypeID<T>` leaves. -/
theorem Restore_state (T : HostType) (var : Var) (mem : MemoryImage) (e : Empower) :
    (Var.Restore T var mem e).2 = e ∨ (Var.Restore T var mem e).2 = (e.GetTypeID T).2 := by
  unfold Var.Restore
  cases mem.empower_ptr with
  | none => exact Or.inl rfl
  | some p =>
    cases e.vars[var.info_id]? with
    | none => exact Or.inl rfl
    | some info =>
      simp only
      cases emp_assert (info.type_id == (e.GetTypeID T).1) with
      | error f => exact Or.inr rfl
      | ok u => exact Or.inr rfl

theorem inv_apply {op : Op} {s s2 : Empower × List Event} (hinv : Inv s.1)
    (h : op.apply s = .ok s2) : Inv s2.1 := by
  cases op with
  | GetTypeID T =>
    simp only [Op.apply] at h
    cases h
    exact inv_GetTypeID T hinv
  | NewVar T name value =>
    simp only [Op.apply] at h
    cases hr : s.1.NewVar T name value s.2 with
    | error f => rw [hr] at h; cases h
    | ok r =>
      rw [hr] at h
      cases h
      exact inv_NewVar hinv hr
  | Restore T var =>
    simp only [Op.apply] at h
    have hst := Restore_state T var s.1.memory s.1
    cases hr : Var.Restore T var s.1.memory s.1 with
    | mk res e2 =>
      rw [hr] at h hst
      cases res with
      | error f => cases h
      | ok v =>
        cases h
        rcases hst with hst | hst
        · simp only at hst ⊢; rw [hst]; exact hinv
        · simp only at hst ⊢; rw [hst]; exact inv_GetTypeID T hinv

theorem inv_run (ops : List Op) {s s2 : Empower × List Event} (hinv : Inv s.1)
    (h : run ops s = .ok s2) : Inv s2.1 := by
  induction ops generalizing s with
  | nil =>
    simp only [run, List.foldlM_nil, pure, Except.pure] at h
    cases h
    exact hinv
  | cons op ops ih =>
    simp only [run, List.foldlM_cons, bind, Except.bind] at h
    cases hop : op.apply s with
    | error f => rw [hop] at h; cases h
    | ok s1 =>
      rw [hop] at h
      exact ih (inv_apply hinv hop) h

/-- Every reachable state has the invariant. -/
theorem Reachable.inv {e : Empower} (hr : Reachable e) : Inv e := by
  obtain ⟨this, ops, log, h⟩ := hr
  exact inv_run ops (inv_init this) h

/-! ### Teardown -/

/-- The host types that own the entries of a list of catalog entries. -/
theorem owners_exist {e : Empower} (hinv : Inv e) (vs : List VarInfo)
    (hvs : ∀ v ∈ vs, v.type_id < e.types.length) :
    ∃ Ts : List HostType, List.Forall₂ (fun v T => e.Describes v.type_id T) vs Ts := by
  induction vs with
  | nil => exact ⟨[], List.Forall₂.nil⟩
  | cons v vs ih =>
    obtain ⟨Ts, hTs⟩ := ih (fun w hw => hvs w (List.mem_cons_of_mem v hw))
    obtain ⟨T, hd, _⟩ := hinv.described v.type_id (hvs v (List.mem_cons_self v vs))
    exact ⟨T :: Ts, List.Forall₂.cons hd hTs⟩

/-- The loop of `Destruct` over entries with known owners: one destructor run per entry, in
order, and the image is left as it was. -/
theorem Destruct_loop {e : Empower} {vs : List VarInfo} {Ts : List HostType}
    (h : List.Forall₂ (fun v T => e.Describes v.type_id T) vs Ts)
    (image : MemoryImage) (log : List Event) :
    vs.foldlM (fun image v => do
        let type ← type_at e.types v.type_id
        pure (type.destruct_fun v image)) (image, log)
      = Except.ok (image,
          log ++ List.zipWith (fun v T => Event.destruct T v.mem_pos) vs Ts) := by
  induction h generalizing log with
  | nil => simp [pure, Except.pure]
  | @cons v T vs Ts hd _ ih =>
    unfold Describes at hd
    have hstep : (do
          let type ← type_at e.types v.type_id
          pure (type.destruct_fun v (image, log)) : Except Fault (MemoryImage × List Event))
        = Except.ok (image, log ++ [Event.destruct T v.mem_pos]) := by
      simp [type_at, hd, bind, Except.bind, pure, Except.pure, TypeInfo.init,
        destruct_lambda]
    simp only [List.foldlM_cons]
    rw [hstep]
    exact (ih _).trans (by simp)

/-- The destructor of a live image, in a state with the invariant. -/
theorem destroy_live {e : Empower} (hinv : Inv e) (image : MemoryImage)
    (hlive : image.empower_ptr ≠ none) (log : List Event) :
    ∃ Ts : List HostType, List.Forall₂ (fun v T => e.Describes v.type_id T) e.vars Ts ∧
      image.destroy e log
        = .ok (log ++ List.zipWith (fun v T => Event.destruct T v.mem_pos) e.vars Ts) := by
  obtain ⟨Ts, hTs⟩ := owners_exist hinv e.vars hinv.var_types
  refine ⟨Ts, hTs, ?_⟩
  unfold MemoryImage.destroy
  cases hp : image.empower_ptr with
  | none => exact absurd hp hlive
  | some p =>
    simp only [Destruct]
    rw [Destruct_loop hTs]
    rfl

/-- The destructor of an inert image runs no destructor. -/
theorem destroy_inert (e : Empower) (image : MemoryImage) (hnull : image.empower_ptr = none)
    (log : List Event) : image.destroy e log = .ok log := by
  simp [MemoryImage.destroy, hnull]

theorem zipWith_owner_length {e : Empower} {vs : List VarInfo} {Ts : List HostType}
    (h : List.Forall₂ (fun v T => e.Describes v.type_id T) vs Ts) :
    (List.zipWith (fun v T => Event.destruct T v.mem_pos) vs Ts).length = vs.length := by
  simp [List.length_zipWith, h.length_eq]

/-! ### Copy construction -/

/-- A byte of an image after a store. -/
theorem store_byte (m : MemoryImage) (pos : Nat) (obj : List byte_t) (j : Nat) :
    (m.store pos obj).memory[j]? =
      if j < m.memory.length then
        some (if pos ≤ j ∧ j < pos + obj.length then obj.getD (j - pos) 0
          else m.memory.getD j 0)
      else none := by
  simp only [MemoryImage.store, List.getElem?_map, List.getElem?_range]
  split
  · rename_i hj
    simp [List.getElem?_range hj]
  · rename_i hj
    simp [List.getElem?_eq_none (by simpa using hj : (List.range m.memory.length).length ≤ j)]

/-- Two images that agree on the bytes of an object hold the same object. -/
theorem GetRef_congr (S C : MemoryImage) (T : HostType) (pos : Nat)
    (h : ∀ j, pos ≤ j → j < pos + T.size_of → C.memory[j]? = S.memory[j]?) :
    C.GetRef T pos = S.GetRef T pos := by
  apply List.ext_getElem?
  intro i
  simp only [MemoryImage.GetRef, List.getElem?_take, List.getElem?_drop]
  split
  · rename_i hi
    exact h (pos + i) (by omega) (by omega)
  · rfl

/-- An entry of a catalog that fits an image lies inside the image. -/
theorem fits_bound {e : Empower} {image : MemoryImage} (hfit : fits e image = true)
    {v : VarInfo} (hv : v ∈ e.vars) : v.mem_pos + e.var_size v ≤ image.size := by
  simp only [fits, List.all_eq_true, Bool.and_eq_true, decide_eq_true_eq] at hfit
  exact (hfit v hv).2

/-- An object that lies inside the image has all its bytes. -/
theorem GetRef_length (T : HostType) (m : MemoryImage) (pos : Nat)
    (h : pos + T.size_of ≤ m.size) : (m.GetRef T pos).length = T.size_of := by
  simp only [MemoryImage.size] at h
  simp [MemoryImage.GetRef]
  omega

theorem scenario_A_reachable : Reachable scenario_A := ⟨0, scenario_A_ops, _, rfl⟩

/-! ### Operations keep what the key map holds -/

theorem NewVar_type_map {e : Empower} {T : HostType} {name : String} {value : List byte_t}
    {log : List Event} {r : Var × Empower × List Event}
    (h : e.NewVar T name value log = .ok r) :
    r.2.1.type_map = (e.GetTypeID T).2.type_map ∧ r.2.1.types = (e.GetTypeID T).2.types := by
  obtain ⟨type_info, ht⟩ := NewVar_ok h
  rw [NewVar_eq T name value e log ht] at h
  cases h
  exact ⟨rfl, rfl⟩

theorem apply_keeps {op : Op} {s s2 : Empower × List Event} (h : op.apply s = .ok s2)
    {k id : Nat} (hk : s.1.type_map.find k = some id) : s2.1.type_map.find k = some id := by
  cases op with
  | GetTypeID T =>
    simp only [Op.apply] at h
    cases h
    exact GetTypeID_keeps s.1 T hk
  | NewVar T name value =>
    simp only [Op.apply] at h
    cases hr : s.1.NewVar T name value s.2 with
    | error f => rw [hr] at h; cases h
    | ok r =>
      rw [hr] at h
      cases h
      rw [(NewVar_type_map hr).1]
      exact GetTypeID_keeps s.1 T hk
  | Restore T var =>
    simp only [Op.apply] at h
    have hst := Restore_state T var s.1.memory s.1
    cases hr : Var.Restore T var s.1.memory s.1 with
    | mk res e2 =>
      rw [hr] at h hst
      cases res with
      | error f => cases h
      | ok v =>
        cases h
        rcases hst with hst | hst
        · simp only at hst ⊢; rw [hst]; exact hk
        · simp only at hst ⊢; rw [hst]; exact GetTypeID_keeps s.1 T hk

theorem run_keeps (ops : List Op) {s s2 : Empower × List Event} (h : run ops s = .ok s2)
    {k id : Nat} (hk : s.1.type_map.find k = some id) : s2.1.type_map.find k = some id := by
  induction ops generalizing s with
  | nil =>
    simp only [run, List.foldlM_nil, pure, Except.pure] at h
    cases h
    exact hk
  | cons op ops ih =>
    simp only [run, List.foldlM_cons, bind, Except.bind] at h
    cases hop : op.apply s with
    | error f => rw [hop] at h; cases h
    | ok s1 =>
      rw [hop] at h
      exact ih h (apply_keeps hop hk)

/-! ### Typed access -/

/-- The check of `Restore<T>` on a handle of an existing entry, through a live image. -/
theorem Restore_eq (T : HostType) (var : Var) (mem : MemoryImage) (e : Empower)
    {info : VarInfo} (hlive : mem.empower_ptr ≠ none) (hv : e.vars[var.info_id]? = some info) :
    (Var.Restore T var mem e).1 =
      if info.type_id = (e.GetTypeID T).1 then .ok (mem.GetRef T var.mem_pos)
      else .error Fault.assert_failed := by
  unfold Var.Restore
  cases hp : mem.empower_ptr with
  | none => exact absurd hp hlive
  | some p =>
    simp only [hv, emp_assert]
    by_cases heq : info.type_id = (e.GetTypeID T).1
    · simp [heq]
    · simp [heq]

/-! ### Two declares on a fresh instance -/

theorem store_length (m : MemoryImage) (pos : Nat) (obj : List byte_t) :
    (m.store pos obj).memory.length = m.memory.length := store_size m pos obj

theorem resize_length (m : MemoryImage) (n : Nat) : (m.resize n).memory.length = n :=
  resize_size m n

/-- Declaring a variable of type `T1` and then one of type `T2` on a fresh instance, for host
types that are the same type when they have the same identity key. -/
theorem two_declares (this : Nat) (T1 T2 : HostType) (n1 n2 : String) (v1 v2 : List byte_t)
    (hkey : T1.type_value = T2.type_value → T1 = T2) :
    ∃ s, run [Op.NewVar T1 n1 v1, Op.NewVar T2 n2 v2] (Empower.init this, []) = .ok s ∧
      s.1.vars.map VarInfo.mem_pos = [0, T1.size_of] ∧
      s.1.vars.map VarInfo.var_name = [n1, n2] ∧
      s.1.memory.size = T1.size_of + T2.size_of := by
  by_cases hk : T1.type_value = T2.type_value
  · have := hkey hk
    subst this
    simp [run, Op.apply, NewVar, GetTypeID, Empower.init, std_map.empty, std_map.assign,
      type_at, MemoryImage.init, bind, Except.bind, pure, Except.pure, TypeInfo.init,
      MemoryImage.size, store_length, resize_length]
  · have hk2 : ¬ T2.type_value = T1.type_value := fun h => hk h.symm
    simp [run, Op.apply, NewVar, GetTypeID, Empower.init, std_map.empty, std_map.assign,
      type_at, MemoryImage.init, bind, Except.bind, pure, Except.pure, TypeInfo.init,
      MemoryImage.size, store_length, resize_length, hk, hk2]

/-! ### Sums of sizes -/

theorem sum_take_le (l : List Nat) (a b : Nat) (h : a ≤ b) :
    (l.take a).sum ≤ (l.take b).sum := by
  induction l generalizing a b with
  | nil => simp
  | cons x xs ih =>
    cases a with
    | zero => simp
    | succ a =>
      cases b with
      | zero => omega
      | succ b =>
        simp only [List.take_succ_cons, List.sum_cons]
        have := ih a b (by omega)
        omega

theorem sum_take_le_sum (l : List Nat) (a : Nat) : (l.take a).sum ≤ l.sum := by
  have h := sum_take_le l a (max a l.length) (Nat.le_max_left _ _)
  rw [List.take_of_length_le (Nat.le_max_right _ _)] at h
  exact h

theorem sum_take_succ_eq (l : List Nat) (i : Nat) (hi : i < l.length) :
    (l.take (i + 1)).sum = (l.take i).sum + l.get ⟨i, hi⟩ := by
  exact List.sum_take_succ l i hi

/-- The end of the i-th entry is the sum of the sizes of the entries up to it. -/
theorem entry_end {e : Empower} (hinv : Inv e) (i : Nat) (hi : i < e.vars.length) :
    (e.vars.get ⟨i, hi⟩).mem_pos + e.var_size (e.vars.get ⟨i, hi⟩)
      = ((e.vars.map e.var_size).take (i + 1)).sum := by
  rw [sum_take_succ_eq _ i (by simpa using hi), hinv.offsets i hi, List.map_take]
  simp

/-- In a state with the invariant the default image fits the catalog. -/
theorem inv_fits {e : Empower} (hinv : Inv e) : fits e e.memory = true := by
  simp only [fits, List.all_eq_true, Bool.and_eq_true, decide_eq_true_eq]
  intro v hv
  constructor
  · have hlt := hinv.var_types v hv
    simp [List.getElem?_eq_getElem hlt]
  · obtain ⟨i, hi, hget⟩ := List.getElem_of_mem hv
    have hend := entry_end hinv i hi
    simp only [List.get_eq_getElem, hget] at hend
    rw [hend, hinv.length]
    exact sum_take_le_sum _ _

/-! ### What a declare leaves alone -/

/-- A byte below the old length after a resize that does not cut. -/
theorem resize_byte (m : MemoryImage) (n j : Nat) (hn : m.memory.length ≤ n)
    (hj : j < m.memory.length) : (m.resize n).memory[j]? = m.memory[j]? := by
  simp only [MemoryImage.resize]
  rw [List.take_of_length_le hn, List.getElem?_append_left hj]

/-- A byte in front of the position of a store. -/
theorem store_byte_below (m : MemoryImage) (pos : Nat) (obj : List byte_t) (j : Nat)
    (hj : j < pos) : (m.store pos obj).memory[j]? = m.memory[j]? := by
  rw [store_byte]
  rcases Nat.lt_or_ge j m.memory.length with hlt | hge
  · rw [if_pos hlt, if_neg (by omega)]
    simp [List.getD_eq_getElem?_getD, List.getElem?_eq_getElem hlt]
  · rw [if_neg (by omega), List.getElem?_eq_none hge]

/-- A byte of the object stored, when the object lies inside the image. -/
theorem store_byte_at (m : MemoryImage) (pos : Nat) (obj : List byte_t) (i : Nat)
    (hi : i < obj.length) (hin : pos + obj.length ≤ m.memory.length) :
    (m.store pos obj).memory[pos + i]? = obj[i]? := by
  rw [store_byte, if_pos (by omega), if_pos ⟨by omega, by omega⟩]
  simp [List.getD_eq_getElem?_getD, List.getElem?_eq_getElem hi]

theorem extends_getElem {α : Type} {l l2 : List α} (h : l <+: l2) {i : Nat} {a : α}
    (ha : l[i]? = some a) : l2[i]? = some a := by
  obtain ⟨added, rfl⟩ := h
  have hi : i < l.length := by
    rcases Nat.lt_or_ge i l.length with hlt | hge
    · exact hlt
    · rw [List.getElem?_eq_none hge] at ha
      cases ha
  rw [List.getElem?_append_left hi]
  exact ha

/-! ### The registry and the catalog only grow -/

theorem GetTypeID_extends (e : Empower) (T : HostType) : e.types <+: (e.GetTypeID T).2.types := by
  obtain ⟨added, h⟩ := GetTypeID_types e T
  exact ⟨added, h.symm⟩

theorem NewVar_extends {e : Empower} {T : HostType} {name : String} {value : List byte_t}
    {log : List Event} {r : Var × Empower × List Event}
    (h : e.NewVar T name value log = .ok r) : e.types <+: r.2.1.types := by
  rw [(NewVar_type_map h).2]
  exact GetTypeID_extends e T

theorem Restore_extends (T : HostType) (var : Var) (mem : MemoryImage) (e : Empower) :
    e.types <+: (Var.Restore T var mem e).2.types := by
  rcases Restore_state T var mem e with h | h
  · rw [h]
  · rw [h]; exact GetTypeID_extends e T

theorem Restore_vars (T : HostType) (var : Var) (mem : MemoryImage) (e : Empower) :
    (Var.Restore T var mem e).2.vars = e.vars ∧
    (Var.Restore T var mem e).2.memory = e.memory ∧
    (Var.Restore T var mem e).2.var_map = e.var_map := by
  rcases Restore_state T var mem e with h | h
  · rw [h]; exact ⟨rfl, rfl, rfl⟩
  · rw [h]; exact ⟨GetTypeID_vars e T, GetTypeID_memory e T, GetTypeID_var_map e T⟩

theorem NewVar_vars {e : Empower} {T : HostType} {name : String} {value : List byte_t}
    {log : List Event} {r : Var × Empower × List Event}
    (h : e.NewVar T name value log = .ok r) :
    r.2.1.vars = e.vars ++ [VarInfo.mk (e.GetTypeID T).1 name e.memory.size] := by
  obtain ⟨type_info, ht⟩ := NewVar_ok h
  rw [NewVar_eq T name value e log ht] at h
  cases h
  rfl

/-- One operation extends the registry and the catalog at their ends. -/
theorem apply_extends {op : Op} {s s2 : Empower × List Event} (h : op.apply s = .ok s2) :
    s.1.types <+: s2.1.types ∧ s.1.vars <+: s2.1.vars := by
  cases op with
  | GetTypeID T =>
    simp only [Op.apply] at h
    cases h
    exact ⟨GetTypeID_extends s.1 T, by simp only [GetTypeID_vars]; exact List.prefix_refl _⟩
  | NewVar T name value =>
    simp only [Op.apply] at h
    cases hr : s.1.NewVar T name value s.2 with
    | error f => rw [hr] at h; cases h
    | ok r =>
      rw [hr] at h
      cases h
      exact ⟨NewVar_extends hr, ⟨_, (NewVar_vars hr).symm⟩⟩
  | Restore T var =>
    simp only [Op.apply] at h
    have hp := Restore_extends T var s.1.memory s.1
    have hv := (Restore_vars T var s.1.memory s.1).1
    cases hr : Var.Restore T var s.1.memory s.1 with
    | mk res e2 =>
      rw [hr] at h hp hv
      cases res with
      | error f => cases h
      | ok v =>
        cases h
        simp only at hp hv ⊢
        exact ⟨hp, by rw [hv]⟩

/-- A run of operations extends the registry and the catalog at their ends. -/
theorem run_extends (ops : List Op) {s s2 : Empower × List Event} (h : run ops s = .ok s2) :
    s.1.types <+: s2.1.types ∧ s.1.vars <+: s2.1.vars := by
  induction ops generalizing s with
  | nil =>
    simp only [run, List.foldlM_nil, pure, Except.pure] at h
    cases h
    exact ⟨List.prefix_refl _, List.prefix_refl _⟩
  | cons op ops ih =>
    simp only [run, List.foldlM_cons, bind, Except.bind] at h
    cases hop : op.apply s with
    | error f => rw [hop] at h; cases h
    | ok s1 =>
      rw [hop] at h
      have h1 := apply_extends hop
      have h2 := ih h
      exact ⟨h1.1.trans h2.1, h1.2.trans h2.2⟩

/-! ### Copy assignment and copy construction -/

theorem zipWith_event_length {e : Empower} {vs : List VarInfo} {Ts : List HostType}
    (ev : HostType → Nat → Event)
    (h : List.Forall₂ (fun v T => e.Describes v.type_id T) vs Ts) :
    (List.zipWith (fun v T => ev T v.mem_pos) vs Ts).length = vs.length := by
  simp [List.length_zipWith, h.length_eq]

/-- With descriptors of positive size, every catalog entry has a positive size. -/
theorem var_size_pos {e : Empower} (hinv : Inv e)
    (hpos : ∀ type_info ∈ e.types, 0 < type_info.mem_size) {v : VarInfo} (hv : v ∈ e.vars) :
    0 < e.var_size v := by
  have hlt := hinv.var_types v hv
  simp only [var_size, List.getElem?_eq_getElem hlt]
  exact hpos _ (List.getElem_mem hlt)

/-- An object stored inside the image is the object read back at its position. -/
theorem GetRef_store (m : MemoryImage) (pos : Nat) (obj : List byte_t) (T : HostType)
    (hlen : obj.length = T.size_of) (hin : pos + T.size_of ≤ m.size) :
    (m.store pos obj).GetRef T pos = obj := by
  simp only [MemoryImage.size] at hin
  apply List.ext_getElem?
  intro i
  simp only [MemoryImage.GetRef, List.getElem?_take, List.getElem?_drop]
  split
  · rename_i hi
    exact store_byte_at m pos obj i (by omega) (by omega)
  · rename_i hi
    rw [List.getElem?_eq_none (by omega)]

/-- The regions of the catalog entries lie one behind the other. -/
theorem inv_separated {e : Empower} (hinv : Inv e) :
    List.Pairwise (fun v w => v.mem_pos + e.var_size v ≤ w.mem_pos) e.vars := by
  rw [List.pairwise_iff_getElem]
  intro i j hi hj hij
  have hend := entry_end hinv i hi
  have hstart : (e.vars.get ⟨j, hj⟩).mem_pos = ((e.vars.map e.var_size).take j).sum := by
    rw [hinv.offsets j hj, List.map_take]
  have hle := sum_take_le (e.vars.map e.var_size) (i + 1) j hij
  simp only [List.get_eq_getElem] at hend hstart
  omega

/-- The loop of `CopyConstruct` over entries with known owners: it returns after one copy
construction per entry, in order; the target keeps its length and its pointer and every byte
in front of all the entries.  When the target is as long as the source, the entries lie inside
the source one behind the other, and the host types are copyable, every entry of the target
then holds a whole object whose value is the value of the object in the source. -/
theorem CopyConstruct_loop {e : Empower} {vs : List VarInfo} {Ts : List HostType}
    (h : List.Forall₂ (fun v T => e.Describes v.type_id T) vs Ts) (S : MemoryImage)
    (C : MemoryImage) (log : List Event) :
    ∃ C2, vs.foldlM (fun to_image v => do
          let type ← type_at e.types v.type_id
          pure (type.cconstruct_fun v S to_image)) (C, log)
        = Except.ok (C2,
            log ++ List.zipWith (fun v T => Event.construct T v.mem_pos) vs Ts) ∧
      C2.size = C.size ∧ C2.empower_ptr = C.empower_ptr ∧
      (∀ j, (∀ w ∈ vs, j < w.mem_pos) → C2.memory[j]? = C.memory[j]?) ∧
      (C.size = S.size → (∀ v ∈ vs, v.mem_pos + e.var_size v ≤ S.size) →
        List.Pairwise (fun v w => v.mem_pos + e.var_size v ≤ w.mem_pos) vs →
        (∀ i T, e.Describes i T → T.Copyable) →
        ∀ v ∈ vs, ∃ T, e.Describes v.type_id T ∧
          T.value (C2.GetRef T v.mem_pos) = T.value (S.GetRef T v.mem_pos) ∧
          (C2.GetRef T v.mem_pos).length = T.size_of) := by
  induction h generalizing C log with
  | nil =>
    refine ⟨C, by simp [pure, Except.pure], rfl, rfl, fun _ _ => rfl, ?_⟩
    intro _ _ _ _ v hv
    simp at hv
  | @cons v T vs Ts hd _ ih =>
    have hvsize : e.var_size v = T.size_of := Describes_size hd
    have hd2 := hd
    unfold Describes at hd2
    have hstep : (do
          let type ← type_at e.types v.type_id
          pure (type.cconstruct_fun v S (C, log)) : Except Fault (MemoryImage × List Event))
        = Except.ok (C.store v.mem_pos (T.copy_construct (S.GetRef T v.mem_pos)),
            log ++ [Event.construct T v.mem_pos]) := by
      simp [type_at, hd2, bind, Except.bind, pure, Except.pure, TypeInfo.init,
        cconstruct_lambda]
    obtain ⟨C2, hfold, hs2, hp2, hframe, hvalues⟩ :=
      ih (C.store v.mem_pos (T.copy_construct (S.GetRef T v.mem_pos)))
        (log ++ [Event.construct T v.mem_pos])
    refine ⟨C2, ?_, ?_, ?_, ?_, ?_⟩
    · simp only [List.foldlM_cons]
      rw [hstep]
      exact hfold.trans (by simp)
    · rw [hs2, store_size]
    · rw [hp2, store_ptr]
    · intro j hj
      rw [hframe j (fun w hw => hj w (List.mem_cons_of_mem v hw))]
      exact store_byte_below _ _ _ _ (hj v (List.mem_cons_self v vs))
    · intro hsize hbound hpair hlaw w hw
      rw [List.pairwise_cons] at hpair
      rcases List.mem_cons.1 hw with hw | hw
      · subst hw
        have hin : w.mem_pos + T.size_of ≤ S.size := by
          have := hbound w (List.mem_cons_self w vs)
          omega
        have hsrc : (S.GetRef T w.mem_pos).length = T.size_of := GetRef_length T S _ hin
        have hobj := (hlaw _ T hd).construct_size _ hsrc
        have hread : (C.store w.mem_pos (T.copy_construct (S.GetRef T w.mem_pos))).GetRef T
            w.mem_pos = T.copy_construct (S.GetRef T w.mem_pos) :=
          GetRef_store C w.mem_pos _ T hobj (by rw [hsize]; exact hin)
        have hkeep : C2.GetRef T w.mem_pos
            = (C.store w.mem_pos (T.copy_construct (S.GetRef T w.mem_pos))).GetRef T
                w.mem_pos := by
          apply GetRef_congr
          intro j _ hhi
          apply hframe
          intro u hu
          have := hpair.1 u hu
          omega
        refine ⟨T, hd, ?_, ?_⟩
        · rw [hkeep, hread]
          exact (hlaw _ T hd).construct_value _ hsrc
        · rw [hkeep, hread]
          exact hobj
      · exact hvalues (by rw [store_size]; exact hsize)
          (fun u hu => hbound u (List.mem_cons_of_mem v hu)) hpair.2 hlaw w hw

/-- The copy constructor on a live image, in a state with the invariant: it returns an image
of the length and with the pointer of the source, after one copy construction per catalog
entry; when the source fits the catalog and the host types are copyable, every entry of the
new image holds a whole object whose value is the value of the object in the source. -/
theorem copy_construct_live {e : Empower} (hinv : Inv e) (S : MemoryImage)
    (hlive : S.empower_ptr ≠ none) (log : List Event) {Ts : List HostType}
    (hTs : List.Forall₂ (fun v T => e.Describes v.type_id T) e.vars Ts) :
    ∃ C, S.copy_construct e log
        = .ok (C, log ++ List.zipWith (fun v T => Event.construct T v.mem_pos) e.vars Ts) ∧
      C.size = S.size ∧ C.empower_ptr = S.empower_ptr ∧
      (fits e S = true → (∀ i T, e.Describes i T → T.Copyable) →
        ∀ v ∈ e.vars, ∃ T, e.Describes v.type_id T ∧
          T.value (C.GetRef T v.mem_pos) = T.value (S.GetRef T v.mem_pos) ∧
          (C.GetRef T v.mem_pos).length = T.size_of) := by
  have hsize0 : ((MemoryImage.mk [] none).resize S.memory.length).size = S.size :=
    resize_size _ _
  obtain ⟨C2, hfold, hs2, hp2, _, hvalues⟩ :=
    CopyConstruct_loop hTs S
      { (MemoryImage.mk [] none).resize S.memory.length with empower_ptr := S.empower_ptr } log
  refine ⟨C2, ?_, hs2.trans hsize0, hp2, ?_⟩
  · unfold MemoryImage.copy_construct
    cases hp : S.empower_ptr with
    | none => exact absurd hp hlive
    | some p =>
      simp only [CopyConstruct]
      rw [hp] at hfold
      exact hfold
  · intro hfit hlaw
    exact hvalues hsize0 (fun v hv => fits_bound hfit hv) (inv_separated hinv) hlaw

/-- The instance that `Restore<T>` leaves, for a handle of an existing entry and a live
image: the one `GetTypeID<T>` leaves. -/
theorem Restore_state_eq (T : HostType) (var : Var) (mem : MemoryImage) (e : Empower)
    {info : VarInfo} (hlive : mem.empower_ptr ≠ none) (hv : e.vars[var.info_id]? = some info) :
    (Var.Restore T var mem e).2 = (e.GetTypeID T).2 := by
  unfold Var.Restore
  cases hp : mem.empower_ptr with
  | none => exact absurd hp hlive
  | some p =>
    simp only [hv]
    cases emp_assert (info.type_id == (e.GetTypeID T).1) <;> rfl

/-- In a state with the invariant the key map is injective. -/
theorem type_map_injective {e : Empower} (hinv : Inv e) {k1 k2 id : Nat}
    (h1 : e.type_map.find k1 = some id) (h2 : e.type_map.find k2 = some id) : k1 = k2 := by
  obtain ⟨T, _, hk⟩ := hinv.described id (hinv.map_lt k1 id h1)
  exact ((hk k1).1 h1).trans ((hk k2).1 h2).symm

/-- The sizes of the entries of an earlier catalog are the same in a later state. -/
theorem var_size_stable {e e2 : Empower} (hinv : Inv e) (hp : e.types <+: e2.types) :
    e.vars.map e2.var_size = e.vars.map e.var_size := by
  obtain ⟨added, h⟩ := hp
  exact map_var_size_congr h.symm e.vars hinv.var_types

/-- C1: teardown is exactly-once.  In a reachable state, destroying a live image whose buffer
fits the catalog runs, for every catalog entry in turn, the destructor of the host type that
owns the entry, at the offset of the entry, and runs nothing else: the log grows by exactly one
destructor event per entry.  Destroying an inert image leaves the log as it is. -/
theorem teardown_exactly_once (e : Empower) (hr : Reachable e) (image : MemoryImage)
    (log : List Event) :
    (image.empower_ptr ≠ none → fits e image = true →
      ∃ Ts : List HostType, List.Forall₂ (fun v T => e.Describes v.type_id T) e.vars Ts ∧
        image.destroy e log
          = .ok (log ++ List.zipWith (fun v T => Event.destruct T v.mem_pos) e.vars Ts) ∧
        (List.zipWith (fun v T => Event.destruct T v.mem_pos) e.vars Ts).length
          = e.vars.length) ∧
    (image.empower_ptr = none → image.destroy e log = .ok log) := by
  constructor
  · intro hlive _
    obtain ⟨Ts, hTs, hd⟩ := destroy_live hr.inv image hlive log
    exact ⟨Ts, hTs, hd, zipWith_owner_length hTs⟩
  · intro hnull
    exact destroy_inert e image hnull log

/-- The image of Scenario A is destroyed with one destructor run per variable, the integer
at offset 0 and the text at offset 4; an inert image with none. -/
theorem teardown_exactly_once_witness :
    Reachable scenario_A ∧ scenario_A.memory.empower_ptr ≠ none ∧
    fits scenario_A scenario_A.memory = true ∧
    (∃ Ts : List HostType,
      List.Forall₂ (fun v T => scenario_A.Describes v.type_id T) scenario_A.vars Ts ∧
      scenario_A.memory.destroy scenario_A []
        = .ok ([] ++ List.zipWith (fun v T => Event.destruct T v.mem_pos) scenario_A.vars Ts) ∧
      (List.zipWith (fun v T => Event.destruct T v.mem_pos) scenario_A.vars Ts).length
        = scenario_A.vars.length) ∧
    scenario_A.memory.destroy scenario_A []
      = .ok [Event.destruct int_t 0, Event.destruct text_t 4] ∧
    (MemoryImage.mk [] none).destroy scenario_A [] = .ok [] :=
  ⟨scenario_A_reachable, by decide, by decide,
    (teardown_exactly_once scenario_A scenario_A_reachable scenario_A.memory []).1
      (by decide) (by decide),
    rfl,
    (teardown_exactly_once scenario_A scenario_A_reachable (MemoryImage.mk [] none) []).2 rfl⟩

/-- C2: move inertness.  In a reachable state, move-constructing B from a live image A that
fits the catalog gives B the buffer and the back-reference of A and leaves A inert;
destroying A then runs no destructor, destroying B runs exactly one destructor per catalog
entry, and the two teardowns one after the other run one destructor per entry in total. -/
theorem move_inertness (e : Empower) (hr : Reachable e) (A : MemoryImage)
    (hlive : A.empower_ptr ≠ none) (_hfit : fits e A = true) (log : List Event) :
    A.move_construct.1.memory = A.memory ∧
    A.move_construct.1.empower_ptr = A.empower_ptr ∧
    A.move_construct.2.empower_ptr = none ∧
    A.move_construct.2.destroy e log = .ok log ∧
    ∃ Ts : List HostType, List.Forall₂ (fun v T => e.Describes v.type_id T) e.vars Ts ∧
      A.move_construct.1.destroy e log
        = .ok (log ++ List.zipWith (fun v T => Event.destruct T v.mem_pos) e.vars Ts) ∧
      (List.zipWith (fun v T => Event.destruct T v.mem_pos) e.vars Ts).length
        = e.vars.length ∧
      (A.move_construct.2.destroy e log >>= fun log2 => A.move_construct.1.destroy e log2)
        = .ok (log ++ List.zipWith (fun v T => Event.destruct T v.mem_pos) e.vars Ts) := by
  have hB : A.move_construct.1.empower_ptr ≠ none := hlive
  have hA2 : A.move_construct.2.destroy e log = .ok log :=
    destroy_inert e _ rfl log
  obtain ⟨Ts, hTs, hd⟩ := destroy_live hr.inv A.move_construct.1 hB log
  refine ⟨rfl, rfl, rfl, hA2, Ts, hTs, hd, zipWith_owner_length hTs, ?_⟩
  rw [hA2]
  exact hd

/-- Moving the image of Scenario A: the source is destroyed with no destructor run, the
target with one per variable. -/
theorem move_inertness_witness :
    Reachable scenario_A ∧ scenario_A.memory.empower_ptr ≠ none ∧
    fits scenario_A scenario_A.memory = true ∧
    scenario_A.memory.move_construct.2.destroy scenario_A [] = .ok [] ∧
    scenario_A.memory.move_construct.1.destroy scenario_A []
      = .ok [Event.destruct int_t 0, Event.destruct text_t 4] :=
  ⟨scenario_A_reachable, by decide, by decide,
    (move_inertness scenario_A scenario_A_reachable scenario_A.memory (by decide) (by decide)
      []).2.2.2.1, rfl⟩

/-- C4 fails on the code: in Scenario B the second `Declare("x", 2)` is not rejected.
`NewVar` has no check of the name: the call returns the handle of a second variable (id 1 at
offset 4), the catalog then has two entries named "x", although `VarInfo::var_name` is
documented as the unique name of the variable, the default image has grown to 8 bytes, and
the name map sends "x" to the new entry only. -/
theorem duplicate_declare_accepted :
    scenario_B.vars.map VarInfo.var_name = ["x"] ∧
    (scenario_B_redeclare.toOption.map fun r =>
      (r.1, r.2.1.vars.map VarInfo.var_name, r.2.1.memory.size, r.2.1.var_map.find "x"))
      = some (Var.mk 1 4, ["x", "x"], 8, some 1) := by
  constructor
  · decide
  · rfl

/-- C5: declare postcondition.  A call of `NewVar<T>(name, value)` that returns, in a state
with k catalog entries and a default image of length L, returns the handle (k, L); the catalog
afterwards is the old one followed by the one entry (id of `T`, name, L), so it has k+1
entries; the registry has a descriptor at the id of `T`, and the default image has length L
plus the size recorded in that descriptor. -/
theorem declare_postcondition (e : Empower) (T : HostType) (name : String)
    (value : List byte_t) (log : List Event) (var : Var) (e2 : Empower) (log2 : List Event)
    (h : e.NewVar T name value log = .ok (var, e2, log2)) :
    var.info_id = e.vars.length ∧ var.mem_pos = e.memory.size ∧
    e2.vars = e.vars ++ [VarInfo.mk (e.GetTypeID T).1 name e.memory.size] ∧
    e2.vars.length = e.vars.length + 1 ∧
    e2.vars.getLast? = some (VarInfo.mk (e.GetTypeID T).1 name e.memory.size) ∧
    ∃ type_info, e2.types[(e.GetTypeID T).1]? = some type_info ∧
      e2.memory.size = e.memory.size + type_info.mem_size := by
  obtain ⟨type_info, ht⟩ := NewVar_ok h
  rw [NewVar_eq T name value e log ht] at h
  cases h
  refine ⟨rfl, rfl, rfl, by simp, by simp, type_info, ht, ?_⟩
  simp only [store_size, resize_size]

/-- Scenario A: the 4-byte integer "x" gets id 0 at offset 0, the text "y" id 1 at offset
4, and the default image ends up 4 + 8 bytes long. -/
theorem declare_postcondition_witness :
    (Empower.init 0).NewVar int_t "x" five []
      = .ok (Var.mk 0 0, state_after [Op.NewVar int_t "x" five], [Event.construct int_t 0]) ∧
    (state_after [Op.NewVar int_t "x" five]).NewVar text_t "y" hi [Event.construct int_t 0]
      = .ok (Var.mk 1 4, scenario_A, [Event.construct int_t 0, Event.construct text_t 4]) ∧
    (Var.mk 1 4).info_id = (state_after [Op.NewVar int_t "x" five]).vars.length ∧
    (Var.mk 1 4).mem_pos = (state_after [Op.NewVar int_t "x" five]).memory.size ∧
    scenario_A.vars.length = 2 ∧ scenario_A.memory.size = 12 :=
  have h := declare_postcondition (state_after [Op.NewVar int_t "x" five]) text_t "y" hi
    [Event.construct int_t 0] (Var.mk 1 4) scenario_A
    [Event.construct int_t 0, Event.construct text_t 4] rfl
  ⟨rfl, rfl, h.1, h.2.1, by decide, by decide⟩

/-- C6: layout is a prefix sum.  In every reachable state each catalog entry has a descriptor,
the offset of the i-th entry is the sum of the descriptor sizes of the entries before it, and
the length of the default image is the sum of the descriptor sizes of all entries.  In
particular, declaring on a fresh instance a variable of a type of size s1 and then one of a
type of size s2 (two host types with one identity key being one type) puts the first at offset
0 and the second at offset s1 in a default image of length s1 + s2. -/
theorem layout_prefix_sum (e : Empower) (hr : Reachable e) :
    (∀ v ∈ e.vars, ∃ type_info, e.types[v.type_id]? = some type_info ∧
      e.var_size v = type_info.mem_size) ∧
    (∀ i (hi : i < e.vars.length),
      (e.vars.get ⟨i, hi⟩).mem_pos = ((e.vars.take i).map e.var_size).sum) ∧
    e.memory.size = (e.vars.map e.var_size).sum ∧
    (∀ (this : Nat) (T1 T2 : HostType) (n1 n2 : String) (v1 v2 : List byte_t),
      (T1.type_value = T2.type_value → T1 = T2) →
      ∃ s, run [Op.NewVar T1 n1 v1, Op.NewVar T2 n2 v2] (Empower.init this, []) = .ok s ∧
        s.1.vars.map VarInfo.mem_pos = [0, T1.size_of] ∧
        s.1.vars.map VarInfo.var_name = [n1, n2] ∧
        s.1.memory.size = T1.size_of + T2.size_of) := by
  have hinv := hr.inv
  refine ⟨?_, hinv.offsets, hinv.length, two_declares⟩
  intro v hv
  have hlt := hinv.var_types v hv
  refine ⟨e.types[v.type_id], List.getElem?_eq_getElem hlt, ?_⟩
  simp [var_size, List.getElem?_eq_getElem hlt]

/-- Scenario A: "x" (4 bytes) then "y" (8 bytes) lie at offsets 0 and 4 in an image of 4 + 8
bytes. -/
theorem layout_prefix_sum_witness :
    Reachable scenario_A ∧
    scenario_A.vars.map VarInfo.mem_pos = [0, 4] ∧
    scenario_A.vars.map scenario_A.var_size = [4, 8] ∧
    scenario_A.memory.size = (scenario_A.vars.map scenario_A.var_size).sum :=
  ⟨scenario_A_reachable, by decide, by decide,
    (layout_prefix_sum scenario_A scenario_A_reachable).2.2.1⟩

/-- C7: idempotent resolution.  In every state, a second `GetTypeID<T>` right after the first
returns the same id and leaves the instance, hence the descriptor count and the key map, as
the first call left it; and after any run of operations that follows the first call,
`GetTypeID<T>` still returns that id and changes nothing. -/
theorem resolve_idempotent (e : Empower) (T : HostType) :
    ((e.GetTypeID T).2.GetTypeID T).1 = (e.GetTypeID T).1 ∧
    ((e.GetTypeID T).2.GetTypeID T).2.types.length = (e.GetTypeID T).2.types.length ∧
    ((e.GetTypeID T).2.GetTypeID T).2.type_map = (e.GetTypeID T).2.type_map ∧
    ((e.GetTypeID T).2.GetTypeID T).2 = (e.GetTypeID T).2 ∧
    ∀ (ops : List Op) (log : List Event) (s : Empower × List Event),
      run ops ((e.GetTypeID T).2, log) = .ok s →
        s.1.GetTypeID T = ((e.GetTypeID T).1, s.1) := by
  have h2 : (e.GetTypeID T).2.GetTypeID T = ((e.GetTypeID T).1, (e.GetTypeID T).2) :=
    GetTypeID_found (GetTypeID_find e T)
  refine ⟨by rw [h2], by rw [h2], by rw [h2], by rw [h2], ?_⟩
  intro ops log s hrun
  exact GetTypeID_found (run_keeps ops hrun (GetTypeID_find e T))

/-- On a fresh instance the integer type resolves to id 0, and still does after the two
declares of Scenario A. -/
theorem resolve_idempotent_witness :
    ((Empower.init 0).GetTypeID int_t).1 = 0 ∧
    (((Empower.init 0).GetTypeID int_t).2.GetTypeID int_t).1 = 0 ∧
    ∃ s, run scenario_A_ops (((Empower.init 0).GetTypeID int_t).2, []) = .ok s ∧
      (s.1.GetTypeID int_t).1 = 0 ∧ (s.1.GetTypeID text_t).1 = 1 :=
  ⟨rfl, rfl, _, rfl,
    congrArg Prod.fst ((resolve_idempotent (Empower.init 0) int_t).2.2.2.2 scenario_A_ops [] _
      rfl), rfl⟩

/-- C8: typed access is checked.  Through a live image, `Restore<T>` on a handle of a catalog
entry returns the object at the handle's offset when the type id recorded for the entry is
the id `GetTypeID<T>` gives, and stops with a failed assertion when it is not.  In a reachable
state, the handle that `NewVar<T>` returns passes the check for `T` on the default image, and
fails it for every type whose identity key differs from that of `T`. -/
theorem typed_access_checked (e : Empower) (hr : Reachable e) :
    (∀ (T : HostType) (var : Var) (mem : MemoryImage) (info : VarInfo),
      mem.empower_ptr ≠ none → e.vars[var.info_id]? = some info →
        (info.type_id = (e.GetTypeID T).1 →
          (Var.Restore T var mem e).1 = .ok (mem.GetRef T var.mem_pos)) ∧
        (info.type_id ≠ (e.GetTypeID T).1 →
          (Var.Restore T var mem e).1 = .error Fault.assert_failed)) ∧
    (∀ (T : HostType) (name : String) (value : List byte_t) (log : List Event) (var : Var)
      (e2 : Empower) (log2 : List Event),
      e.NewVar T name value log = .ok (var, e2, log2) →
        (Var.Restore T var e2.memory e2).1 = .ok (e2.memory.GetRef T var.mem_pos) ∧
        ∀ T2 : HostType, T2.type_value ≠ T.type_value →
          (Var.Restore T2 var e2.memory e2).1 = .error Fault.assert_failed) := by
  constructor
  · intro T var mem info hlive hv
    rw [Restore_eq T var mem e hlive hv]
    constructor
    · intro heq; rw [if_pos heq]
    · intro hne; rw [if_neg hne]
  · intro T name value log var e2 log2 h
    have hinv2 : Inv e2 := inv_NewVar hr.inv h
    have htm := (NewVar_type_map h).1
    simp only at htm
    obtain ⟨type_info, ht⟩ := NewVar_ok h
    have hfind : e2.type_map.find T.type_value = some (e.GetTypeID T).1 := by
      rw [htm]; exact GetTypeID_find e T
    have hentry : e2.vars[var.info_id]?
        = some (VarInfo.mk (e.GetTypeID T).1 name e.memory.size) := by
      rw [NewVar_eq T name value e log ht] at h
      cases h
      simp
    constructor
    · rw [Restore_eq T var e2.memory e2 hinv2.live hentry, GetTypeID_found hfind]
      simp
    · intro T2 hne
      rw [Restore_eq T2 var e2.memory e2 hinv2.live hentry]
      have hdiff : (e.GetTypeID T).1 ≠ (e2.GetTypeID T2).1 := by
        have hlt := hinv2.map_lt _ _ hfind
        cases hf2 : e2.type_map.find T2.type_value with
        | none =>
          rw [GetTypeID_fresh hf2]
          simp only
          omega
        | some id2 =>
          rw [GetTypeID_found hf2]
          simp only
          intro heq
          obtain ⟨T3, _, hk⟩ := hinv2.described _ hlt
          have h1 := (hk T.type_value).1 hfind
          have h2 := (hk T2.type_value).1 (heq ▸ hf2)
          exact hne (h2.trans h1.symm)
      simp [hdiff]

/-- In Scenario A the handle of "y", declared as text, reads back "hi" as text and fails
the check as an integer. -/
theorem typed_access_checked_witness :
    Reachable (state_after [Op.NewVar int_t "x" five]) ∧
    (state_after [Op.NewVar int_t "x" five]).NewVar text_t "y" hi [Event.construct int_t 0]
      = .ok (Var.mk 1 4, scenario_A, [Event.construct int_t 0, Event.construct text_t 4]) ∧
    (Var.Restore text_t (Var.mk 1 4) scenario_A.memory scenario_A).1
      = .ok (text_t.copy_construct hi) ∧
    (Var.Restore int_t (Var.mk 1 4) scenario_A.memory scenario_A).1
      = .error Fault.assert_failed :=
  have hr : Reachable (state_after [Op.NewVar int_t "x" five]) :=
    ⟨0, [Op.NewVar int_t "x" five], _, rfl⟩
  have h := (typed_access_checked (state_after [Op.NewVar int_t "x" five]) hr).2 text_t "y" hi
    [Event.construct int_t 0] (Var.mk 1 4) scenario_A
    [Event.construct int_t 0, Event.construct text_t 4] rfl
  ⟨hr, rfl, h.1, h.2 int_t (by decide)⟩

/-- C9: lookup by name.  In every reachable state a lookup that returns an id returns the
index of a catalog entry whose recorded name is the name looked up; it returns an id when the
catalog has an entry of that name, and fails with `UnknownVariable` when it has none; the
instance is left as it was. -/
theorem lookup_by_name (e : Empower) (hr : Reachable e) (name : String) :
    (∀ id, (Lookup name e).1 = .ok id →
      ∃ v, e.vars[id]? = some v ∧ v.var_name = name) ∧
    ((∃ v ∈ e.vars, v.var_name = name) → ∃ id, (Lookup name e).1 = .ok id) ∧
    ((∀ v ∈ e.vars, v.var_name ≠ name) → (Lookup name e).1 = .error Error.UnknownVariable) ∧
    (Lookup name e).2 = e := by
  have hinv := hr.inv
  refine ⟨?_, ?_, ?_, ?_⟩
  · intro id hid
    cases hf : e.var_map.find name with
    | none => simp [Lookup, hf] at hid
    | some id2 =>
      simp only [Lookup, hf] at hid
      cases hid
      exact hinv.names name id hf
  · rintro ⟨v, hv, hname⟩
    have hne := hinv.named v hv
    rw [hname] at hne
    cases hf : e.var_map.find name with
    | none => exact absurd hf hne
    | some id => exact ⟨id, by simp [Lookup, hf]⟩
  · intro hnone
    cases hf : e.var_map.find name with
    | none => simp [Lookup, hf]
    | some id =>
      obtain ⟨v, hv, hname⟩ := hinv.names name id hf
      exact absurd hname (hnone v (List.getElem?_mem hv))
  · unfold Lookup
    cases e.var_map.find name <;> rfl

/-- In Scenario A the name "y" is found at index 1 and the name "z" is unknown. -/
theorem lookup_by_name_witness :
    Reachable scenario_A ∧ (Lookup "y" scenario_A).1 = .ok 1 ∧
    (Lookup "z" scenario_A).1 = .error Error.UnknownVariable :=
  ⟨scenario_A_reachable, rfl,
    (lookup_by_name scenario_A scenario_A_reachable "z").2.2.1 (by decide)⟩

/-- C10 fails on the code: the destructor of the instance of Scenario A releases `type_map`,
`var_map`, `types` and `vars` before it destroys `memory`, so the teardown of the default
image reads a catalog whose lifetime has ended and no destructor of a variable has run by
then; had `memory` been destroyed first, each of the two variables would have been destroyed
once. -/
theorem facade_teardown_after_release :
    member_declaration.reverse
      = [Member.type_map, Member.var_map, Member.types, Member.vars, Member.memory] ∧
    scenario_A.destroy [] = .error Fault.undefined ∧
    destroy_members member_declaration scenario_A []
      = .ok [Event.destruct int_t 0, Event.destruct text_t 4] :=
  ⟨rfl, rfl, rfl⟩

/-- C11: the catalog never references unreserved storage.  In every reachable state the type
id of every catalog entry is an index into the registry, and the offset of the entry plus the
size of its descriptor is at most the length of the default image; so the default image fits
the catalog. -/
theorem catalog_within_image (e : Empower) (hr : Reachable e) :
    (∀ v ∈ e.vars, v.type_id < e.types.length ∧
      ∃ type_info, e.types[v.type_id]? = some type_info ∧
        v.mem_pos + type_info.mem_size ≤ e.memory.size) ∧
    fits e e.memory = true := by
  have hinv := hr.inv
  have hfit := inv_fits hinv
  refine ⟨?_, hfit⟩
  intro v hv
  have hlt := hinv.var_types v hv
  refine ⟨hlt, e.types[v.type_id], List.getElem?_eq_getElem hlt, ?_⟩
  have hb := fits_bound hfit hv
  simpa [var_size, List.getElem?_eq_getElem hlt] using hb

/-- In Scenario A the entries end at bytes 4 and 12 of a default image of 12 bytes. -/
theorem catalog_within_image_witness :
    Reachable scenario_A ∧
    scenario_A.vars.map (fun v => v.mem_pos + scenario_A.var_size v) = [4, 12] ∧
    scenario_A.memory.size = 12 ∧ fits scenario_A scenario_A.memory = true :=
  ⟨scenario_A_reachable, by decide, by decide,
    (catalog_within_image scenario_A scenario_A_reachable).2⟩

/-- C12: declare changes nothing that already existed.  After a call of `NewVar` that returns,
the catalog is the old catalog followed by one new entry, so every entry that was there keeps
its index, name, type id and offset; the default image is at least as long as before, has the
same back-reference, and every byte below its old length has the value it had; and when the
copy constructor of `T` builds an object of `sizeof(T)` bytes that the appended region has
room for, that object is what the region holds. -/
theorem declare_frame (e : Empower) (T : HostType) (name : String) (value : List byte_t)
    (log : List Event) (var : Var) (e2 : Empower) (log2 : List Event)
    (h : e.NewVar T name value log = .ok (var, e2, log2)) :
    (∃ added, e2.vars = e.vars ++ [added]) ∧
    (∀ (i : Nat) (v : VarInfo), e.vars[i]? = some v → e2.vars[i]? = some v) ∧
    e.memory.size ≤ e2.memory.size ∧
    e2.memory.empower_ptr = e.memory.empower_ptr ∧
    (∀ j, j < e.memory.size → e2.memory.memory[j]? = e.memory.memory[j]?) ∧
    (value.length = T.size_of → (T.copy_construct value).length = T.size_of →
      e.memory.size + T.size_of ≤ e2.memory.size →
      e2.memory.GetRef T e.memory.size = T.copy_construct value) := by
  have hvars := NewVar_vars h
  simp only at hvars
  obtain ⟨type_info, ht⟩ := NewVar_ok h
  rw [NewVar_eq T name value e log ht] at h
  cases h
  refine ⟨⟨_, rfl⟩, ?_, ?_, ?_, ?_, ?_⟩
  · intro i v hv
    exact extends_getElem ⟨_, rfl⟩ hv
  · simp only [store_size, resize_size]
    omega
  · simp only [store_ptr, resize_ptr]
  · intro j hj
    simp only
    rw [store_byte_below _ _ _ _ hj]
    exact resize_byte _ _ _ (by simp only [MemoryImage.size]; omega) hj
  · intro hlen hobj hroom
    simp only [store_size, resize_size] at hroom
    simp only
    have htake : value.take T.size_of = value := List.take_of_length_le (by omega)
    rw [htake]
    exact GetRef_store _ _ _ T hobj (by rw [resize_size]; omega)

/-- The second declare of Scenario A keeps the entry and the four bytes of "x" and puts a
copy of "hi" behind them. -/
theorem declare_frame_witness :
    (state_after [Op.NewVar int_t "x" five]).NewVar text_t "y" hi [Event.construct int_t 0]
      = .ok (Var.mk 1 4, scenario_A, [Event.construct int_t 0, Event.construct text_t 4]) ∧
    (state_after [Op.NewVar int_t "x" five]).vars = [VarInfo.mk 0 "x" 0] ∧
    scenario_A.vars = [VarInfo.mk 0 "x" 0, VarInfo.mk 1 "y" 4] ∧
    (state_after [Op.NewVar int_t "x" five]).memory.memory = five ∧
    scenario_A.memory.memory = five ++ text_t.copy_construct hi ∧
    scenario_A.memory.GetRef text_t (state_after [Op.NewVar int_t "x" five]).memory.size
      = text_t.copy_construct hi :=
  ⟨rfl, by decide, by decide, by decide, by decide,
    (declare_frame (state_after [Op.NewVar int_t "x" five]) text_t "y" hi
      [Event.construct int_t 0] (Var.mk 1 4) scenario_A
      [Event.construct int_t 0, Event.construct text_t 4] rfl).2.2.2.2.2 (by decide)
      (by decide) (by decide)⟩

/-- C13: the registry is monotone and immutable.  `GetTypeID`, a `NewVar` that returns,
`Restore` (whether its check passes or fails) and every run of these operations leave the old
registry as a prefix of the new one: every descriptor stays as it is at its index and the
count does not decrease.  (The image operations, copy, move and teardown, read the instance
and return images and the log only.) -/
theorem registry_monotone (e : Empower) :
    (∀ T : HostType, e.types <+: (e.GetTypeID T).2.types) ∧
    (∀ (T : HostType) (name : String) (value : List byte_t) (log : List Event)
      (r : Var × Empower × List Event),
      e.NewVar T name value log = .ok r → e.types <+: r.2.1.types) ∧
    (∀ (T : HostType) (var : Var) (mem : MemoryImage),
      e.types <+: (Var.Restore T var mem e).2.types) ∧
    (∀ (ops : List Op) (log : List Event) (s : Empower × List Event),
      run ops (e, log) = .ok s →
        e.types <+: s.1.types ∧ e.types.length ≤ s.1.types.length ∧
        ∀ (i : Nat) (type_info : TypeInfo),
          e.types[i]? = some type_info → s.1.types[i]? = some type_info) := by
  refine ⟨GetTypeID_extends e, ?_, fun T var mem => Restore_extends T var mem e, ?_⟩
  · intro T name value log r h
    exact NewVar_extends h
  · intro ops log s h
    have hp := (run_extends ops h).1
    exact ⟨hp, hp.length_le, fun i type_info hi => extends_getElem hp hi⟩

/-- After the first declare of Scenario A the registry holds the descriptor of the integer
type; the second declare and a failing typed access keep it at index 0. -/
theorem registry_monotone_witness :
    (state_after [Op.NewVar int_t "x" five]).types.map TypeInfo.type_name = ["i"] ∧
    scenario_A.types.map TypeInfo.type_name = ["i", "Ss"] ∧
    (state_after [Op.NewVar int_t "x" five]).types <+: scenario_A.types ∧
    (Var.Restore text_t (Var.mk 0 0) (state_after [Op.NewVar int_t "x" five]).memory
      (state_after [Op.NewVar int_t "x" five])).1 = .error Fault.assert_failed ∧
    (state_after [Op.NewVar int_t "x" five]).types <+:
      (Var.Restore text_t (Var.mk 0 0) (state_after [Op.NewVar int_t "x" five]).memory
        (state_after [Op.NewVar int_t "x" five])).2.types :=
  ⟨by decide, by decide,
    ((registry_monotone (state_after [Op.NewVar int_t "x" five])).2.2.2
      [Op.NewVar text_t "y" hi] [Event.construct int_t 0] (scenario_A, _) rfl).1,
    rfl,
    (registry_monotone (state_after [Op.NewVar int_t "x" five])).2.2.1 text_t (Var.mk 0 0) _⟩

/-- C15: offsets are strictly increasing.  In a reachable state whose descriptors all have a
positive size (as every `sizeof` is), for catalog entries i < j the offset of i is below the
offset of j, and the region of i ends at or before the offset of j, so the regions of two
entries are disjoint. -/
theorem offsets_increasing (e : Empower) (hr : Reachable e)
    (hpos : ∀ type_info ∈ e.types, 0 < type_info.mem_size)
    (i j : Nat) (hi : i < e.vars.length) (hj : j < e.vars.length) (hij : i < j) :
    (e.vars.get ⟨i, hi⟩).mem_pos < (e.vars.get ⟨j, hj⟩).mem_pos ∧
    (e.vars.get ⟨i, hi⟩).mem_pos + e.var_size (e.vars.get ⟨i, hi⟩)
      ≤ (e.vars.get ⟨j, hj⟩).mem_pos := by
  have hinv := hr.inv
  have hend := entry_end hinv i hi
  have hstart : (e.vars.get ⟨j, hj⟩).mem_pos = ((e.vars.map e.var_size).take j).sum := by
    rw [hinv.offsets j hj, List.map_take]
  have hle := sum_take_le (e.vars.map e.var_size) (i + 1) j hij
  have hsz := var_size_pos hinv hpos (List.get_mem e.vars i hi)
  omega

/-- In Scenario A the region of "x" is bytes 0 to 3 and "y" starts at byte 4. -/
theorem offsets_increasing_witness :
    Reachable scenario_A ∧ (∀ type_info ∈ scenario_A.types, 0 < type_info.mem_size) ∧
    (scenario_A.vars.get ⟨0, by decide⟩).mem_pos < (scenario_A.vars.get ⟨1, by decide⟩).mem_pos ∧
    (scenario_A.vars.get ⟨0, by decide⟩).mem_pos
      + scenario_A.var_size (scenario_A.vars.get ⟨0, by decide⟩)
      ≤ (scenario_A.vars.get ⟨1, by decide⟩).mem_pos :=
  ⟨scenario_A_reachable, by decide,
    offsets_increasing scenario_A scenario_A_reachable (by decide) 0 1 (by decide) (by decide)
      (by decide)⟩

/-- C16: type ids are sequential, stable and never reused.  In every reachable state the
descriptor at index i has id i; the key map is injective, maps into the indices of the
registry and reaches every index; `GetTypeID` of a type whose key is not mapped returns the
number of descriptors so far and appends exactly one descriptor; and when, after `T1` was
resolved and any run of operations, `T2` resolves to the id of `T1`, the two have the same
identity key. -/
theorem type_ids_sequential (e : Empower) (hr : Reachable e) :
    (∀ i (hi : i < e.types.length), (e.types.get ⟨i, hi⟩).type_id = i) ∧
    (∀ k1 k2 id, e.type_map.find k1 = some id → e.type_map.find k2 = some id → k1 = k2) ∧
    (∀ k id, e.type_map.find k = some id → id < e.types.length) ∧
    (∀ id, id < e.types.length → ∃ k, e.type_map.find k = some id) ∧
    (∀ T : HostType, e.type_map.find T.type_value = none →
      (e.GetTypeID T).1 = e.types.length ∧
      (e.GetTypeID T).2.types.length = e.types.length + 1) ∧
    (∀ (T1 T2 : HostType) (ops : List Op) (log : List Event) (s : Empower × List Event),
      run ops ((e.GetTypeID T1).2, log) = .ok s →
        (s.1.GetTypeID T2).1 = (e.GetTypeID T1).1 → T2.type_value = T1.type_value) := by
  have hinv := hr.inv
  refine ⟨?_, ?_, hinv.map_lt, ?_, ?_, ?_⟩
  · intro i hi
    obtain ⟨T, hd, _⟩ := hinv.described i hi
    unfold Describes at hd
    rw [List.getElem?_eq_getElem hi] at hd
    have hd2 := Option.some.inj hd
    simp only [List.get_eq_getElem, hd2, TypeInfo.init]
  · intro k1 k2 id h1 h2
    exact type_map_injective hinv h1 h2
  · intro id hid
    obtain ⟨T, _, hk⟩ := hinv.described id hid
    exact ⟨T.type_value, (hk _).2 rfl⟩
  · intro T hnone
    rw [GetTypeID_fresh hnone]
    simp
  · intro T1 T2 ops log s hrun hsame
    have hinv1 : Inv (e.GetTypeID T1).2 := inv_GetTypeID T1 hinv
    have hinvs : Inv s.1 := inv_run ops hinv1 hrun
    have hf1 : s.1.type_map.find T1.type_value = some (e.GetTypeID T1).1 :=
      run_keeps ops hrun (GetTypeID_find e T1)
    cases hf2 : s.1.type_map.find T2.type_value with
    | none =>
      rw [GetTypeID_fresh hf2] at hsame
      simp only at hsame
      have := hinvs.map_lt _ _ hf1
      omega
    | some id2 =>
      rw [GetTypeID_found hf2] at hsame
      simp only at hsame
      subst hsame
      exact type_map_injective hinvs hf2 hf1

/-- In Scenario A the integer type has id 0 and the text type id 1; a third type gets id
2. -/
theorem type_ids_sequential_witness :
    Reachable scenario_A ∧
    scenario_A.types.map TypeInfo.type_id = [0, 1] ∧
    scenario_A.type_map.find int_t.type_value = some 0 ∧
    scenario_A.type_map.find text_t.type_value = some 1 ∧
    (scenario_A.GetTypeID double_t).1 = scenario_A.types.length ∧
    (scenario_A.GetTypeID double_t).2.types.length
      = scenario_A.types.length + 1 :=
  ⟨scenario_A_reachable, by decide, by decide, by decide,
    ((type_ids_sequential scenario_A scenario_A_reachable).2.2.2.2.1 double_t
      (by decide)).1,
    ((type_ids_sequential scenario_A scenario_A_reachable).2.2.2.2.1 double_t
      (by decide)).2⟩

/-- C17: clones do not follow catalog growth.  In a reachable state let C be copy-constructed
from the default image and let a `NewVar` then return, in a registry whose descriptors all
have a positive size.  C is as long as the catalog's total size was when C was made; the
declare takes and returns the instance only, so C keeps its length and bytes; and the
catalog's total size after the declare, which is the new length of the default image, is the
length of C plus the size of the new entry, hence strictly above the length of C. -/
theorem clone_not_extended (e : Empower) (hr : Reachable e) (log : List Event)
    (C : MemoryImage) (log1 : List Event)
    (hclone : e.memory.copy_construct e log = .ok (C, log1))
    (T : HostType) (name : String) (value : List byte_t) (var : Var) (e2 : Empower)
    (log2 : List Event) (hdecl : e.NewVar T name value log1 = .ok (var, e2, log2))
    (hpos : ∀ type_info ∈ e2.types, 0 < type_info.mem_size) :
    C.size = e.memory.size ∧
    C.size = (e.vars.map e.var_size).sum ∧
    e2.memory.size = (e2.vars.map e2.var_size).sum ∧
    (e2.vars.map e2.var_size).sum
      = C.size + e2.var_size (VarInfo.mk (e.GetTypeID T).1 name e.memory.size) ∧
    C.size < (e2.vars.map e2.var_size).sum ∧ C.size < e2.memory.size := by
  have hinv := hr.inv
  have hinv2 : Inv e2 := inv_NewVar hinv hdecl
  obtain ⟨Ts, hTs⟩ := owners_exist hinv e.vars hinv.var_types
  obtain ⟨C2, hcopy, hsize, _⟩ := copy_construct_live hinv e.memory hinv.live log hTs
  rw [hclone] at hcopy
  cases hcopy
  have hvars := NewVar_vars hdecl
  simp only at hvars
  have hstable := var_size_stable hinv (NewVar_extends hdecl)
  simp only at hstable
  have hnew : 0 < e2.var_size (VarInfo.mk (e.GetTypeID T).1 name e.memory.size) := by
    apply var_size_pos hinv2 hpos
    rw [hvars]
    simp
  have hsum : (e2.vars.map e2.var_size).sum
      = e.memory.size + e2.var_size (VarInfo.mk (e.GetTypeID T).1 name e.memory.size) := by
    rw [hvars, List.map_append, List.sum_append, hstable, ← hinv.length]
    simp
  refine ⟨hsize, by rw [hsize, hinv.length], hinv2.length, by rw [hsum, hsize], ?_, ?_⟩
  · rw [hsum, hsize]; omega
  · rw [hinv2.length, hsum, hsize]; omega

/-- A clone of the default image made after `Declare("x", 5)` is 4 bytes long; after
`Declare("y", "hi")` the catalog needs 12 bytes. -/
theorem clone_not_extended_witness :
    Reachable (state_after [Op.NewVar int_t "x" five]) ∧
    (state_after [Op.NewVar int_t "x" five]).memory.copy_construct
      (state_after [Op.NewVar int_t "x" five]) []
      = .ok (MemoryImage.mk five (some 0), [Event.construct int_t 0]) ∧
    (state_after [Op.NewVar int_t "x" five]).NewVar text_t "y" hi [Event.construct int_t 0]
      = .ok (Var.mk 1 4, scenario_A, [Event.construct int_t 0, Event.construct text_t 4]) ∧
    (∀ type_info ∈ scenario_A.types, 0 < type_info.mem_size) ∧
    (MemoryImage.mk five (some 0)).size = 4 ∧
    (MemoryImage.mk five (some 0)).size < scenario_A.memory.size :=
  have hr : Reachable (state_after [Op.NewVar int_t "x" five]) :=
    ⟨0, [Op.NewVar int_t "x" five], _, rfl⟩
  ⟨hr, rfl, rfl, by decide, by decide,
    (clone_not_extended (state_after [Op.NewVar int_t "x" five]) hr []
      (MemoryImage.mk five (some 0)) [Event.construct int_t 0] rfl text_t "y" hi (Var.mk 1 4)
      scenario_A [Event.construct int_t 0, Event.construct text_t 4] rfl
      (by decide)).2.2.2.2.2⟩

/-- C18: image callbacks iterate the current catalog.  In a reachable state with k catalog
entries let C be copy-constructed from the default image, and let a run of operations then
lead to a state with more entries.  Destroying C in that state runs one destructor for every
entry of the current catalog, and copy-constructing from C runs one copy construction for
every entry of the current catalog; the entries from index k on are among them, and their
offsets are at or beyond the length of C. -/
theorem clone_callbacks_follow_catalog (e : Empower) (hr : Reachable e) (log0 : List Event)
    (C : MemoryImage) (log1 : List Event)
    (hclone : e.memory.copy_construct e log0 = .ok (C, log1))
    (ops : List Op) (s : Empower × List Event) (hrun : run ops (e, log1) = .ok s)
    (_hmore : e.vars.length < s.1.vars.length) (log : List Event) :
    ∃ Ts : List HostType,
      List.Forall₂ (fun v T => s.1.Describes v.type_id T) s.1.vars Ts ∧
      C.destroy s.1 log
        = .ok (log ++ List.zipWith (fun v T => Event.destruct T v.mem_pos) s.1.vars Ts) ∧
      (List.zipWith (fun v T => Event.destruct T v.mem_pos) s.1.vars Ts).length
        = s.1.vars.length ∧
      (∃ C2, C.copy_construct s.1 log
        = .ok (C2, log ++ List.zipWith (fun v T => Event.construct T v.mem_pos) s.1.vars Ts)) ∧
      (List.zipWith (fun v T => Event.construct T v.mem_pos) s.1.vars Ts).length
        = s.1.vars.length ∧
      ∀ i (hi : i < s.1.vars.length), e.vars.length ≤ i →
        C.size ≤ (s.1.vars.get ⟨i, hi⟩).mem_pos := by
  have hinv := hr.inv
  have hinvs : Inv s.1 := inv_run ops hinv hrun
  obtain ⟨Ts0, hTs0⟩ := owners_exist hinv e.vars hinv.var_types
  obtain ⟨C0, hcopy, hsize, hptr, _⟩ := copy_construct_live hinv e.memory hinv.live log0 hTs0
  rw [hclone] at hcopy
  cases hcopy
  have hlive : C.empower_ptr ≠ none := by rw [hptr]; exact hinv.live
  obtain ⟨Ts, hTs, hdestroy⟩ := destroy_live hinvs C hlive log
  obtain ⟨C2, hcopy2, _, _⟩ := copy_construct_live hinvs C hlive log hTs
  refine ⟨Ts, hTs, hdestroy, zipWith_event_length Event.destruct hTs, ⟨C2, hcopy2⟩,
    zipWith_event_length Event.construct hTs, ?_⟩
  intro i hi hki
  obtain ⟨hpt, more, hpv⟩ := run_extends ops hrun
  simp only at hpt hpv
  have hstable := var_size_stable hinv hpt
  have htake : (s.1.vars.map s.1.var_size).take e.vars.length = e.vars.map e.var_size := by
    rw [← List.map_take, ← hpv, List.take_left, hstable]
  have hle := sum_take_le (s.1.vars.map s.1.var_size) e.vars.length i hki
  rw [htake, ← hinv.length] at hle
  rw [hinvs.offsets i hi, List.map_take, hsize]
  exact hle

/-- A clone made after `Declare("x", 5)` is 4 bytes long; after `Declare("y", "hi")`
destroying it runs the destructor of the integer at offset 0 and that of the text at offset
4, and copying from it constructs both. -/
theorem clone_callbacks_follow_catalog_witness :
    Reachable (state_after [Op.NewVar int_t "x" five]) ∧
    (state_after [Op.NewVar int_t "x" five]).memory.copy_construct
      (state_after [Op.NewVar int_t "x" five]) []
      = .ok (MemoryImage.mk five (some 0), [Event.construct int_t 0]) ∧
    run [Op.NewVar text_t "y" hi]
      (state_after [Op.NewVar int_t "x" five], [Event.construct int_t 0])
      = .ok (scenario_A, [Event.construct int_t 0, Event.construct text_t 4]) ∧
    (state_after [Op.NewVar int_t "x" five]).vars.length < scenario_A.vars.length ∧
    (MemoryImage.mk five (some 0)).destroy scenario_A []
      = .ok [Event.destruct int_t 0, Event.destruct text_t 4] ∧
    ((MemoryImage.mk five (some 0)).copy_construct scenario_A []).toOption.map Prod.snd
      = some [Event.construct int_t 0, Event.construct text_t 4] ∧
    ∃ Ts : List HostType,
      List.Forall₂ (fun v T => scenario_A.Describes v.type_id T) scenario_A.vars Ts ∧
      (MemoryImage.mk five (some 0)).destroy scenario_A []
        = .ok ([] ++ List.zipWith (fun v T => Event.destruct T v.mem_pos) scenario_A.vars Ts) ∧
      (List.zipWith (fun v T => Event.destruct T v.mem_pos) scenario_A.vars Ts).length
        = scenario_A.vars.length ∧
      (∃ C2, (MemoryImage.mk five (some 0)).copy_construct scenario_A []
        = .ok (C2,
          [] ++ List.zipWith (fun v T => Event.construct T v.mem_pos) scenario_A.vars Ts)) ∧
      (List.zipWith (fun v T => Event.construct T v.mem_pos) scenario_A.vars Ts).length
        = scenario_A.vars.length ∧
      ∀ i (hi : i < scenario_A.vars.length),
        (state_after [Op.NewVar int_t "x" five]).vars.length ≤ i →
          (MemoryImage.mk five (some 0)).size ≤ (scenario_A.vars.get ⟨i, hi⟩).mem_pos :=
  have hr : Reachable (state_after [Op.NewVar int_t "x" five]) :=
    ⟨0, [Op.NewVar int_t "x" five], _, rfl⟩
  ⟨hr, rfl, rfl, by decide, rfl, rfl,
    clone_callbacks_follow_catalog (state_after [Op.NewVar int_t "x" five]) hr []
      (MemoryImage.mk five (some 0)) [Event.construct int_t 0] rfl [Op.NewVar text_t "y" hi]
      (scenario_A, [Event.construct int_t 0, Event.construct text_t 4]) rfl (by decide) []⟩

/-- C19: the type check of typed access is not read-only.  In a reachable state, for a
handle of a catalog entry and a live image, `Restore<T>` leaves the instance as
`GetTypeID<T>` leaves it: when the key of `T` is not mapped, the registry has one new
descriptor, that of `T`, at its end, the key of `T` is mapped to it, and the check fails;
when the key of `T` is mapped, the instance is as before.  In both cases the catalog, the name
map and the default image are as before (the image read is not returned at all). -/
theorem typed_access_registers (e : Empower) (hr : Reachable e) (T : HostType) (var : Var)
    (mem : MemoryImage) (info : VarInfo) (hlive : mem.empower_ptr ≠ none)
    (hv : e.vars[var.info_id]? = some info) :
    (e.type_map.find T.type_value = none →
      (Var.Restore T var mem e).1 = .error Fault.assert_failed ∧
      (Var.Restore T var mem e).2.types
        = e.types ++ [TypeInfo.init e.types.length T.type_name T.size_of
            (cconstruct_lambda T) (copy_lambda T) (destruct_lambda T)] ∧
      (Var.Restore T var mem e).2.types.length = e.types.length + 1 ∧
      (Var.Restore T var mem e).2.type_map.find T.type_value = some e.types.length) ∧
    (∀ id, e.type_map.find T.type_value = some id → (Var.Restore T var mem e).2 = e) ∧
    (Var.Restore T var mem e).2.vars = e.vars ∧
    (Var.Restore T var mem e).2.var_map = e.var_map ∧
    (Var.Restore T var mem e).2.memory = e.memory := by
  have hinv := hr.inv
  have hstate := Restore_state_eq T var mem e hlive hv
  have hframe := Restore_vars T var mem e
  refine ⟨?_, ?_, hframe.1, hframe.2.2, hframe.2.1⟩
  · intro hnone
    have hlt : info.type_id < e.types.length := hinv.var_types info (List.getElem?_mem hv)
    refine ⟨?_, ?_, ?_, ?_⟩
    · rw [Restore_eq T var mem e hlive hv, GetTypeID_fresh hnone]
      simp only
      rw [if_neg (by omega)]
    · rw [hstate, GetTypeID_fresh hnone]
    · rw [hstate, GetTypeID_fresh hnone]
      simp
    · rw [hstate, GetTypeID_fresh hnone]
      simp [std_map.assign]
  · intro id hsome
    rw [hstate, GetTypeID_found hsome]

/-- In Scenario A a typed access to "x" as a type never seen fails and leaves a third
descriptor in the registry; as an integer it succeeds and leaves two. -/
theorem typed_access_registers_witness :
    Reachable scenario_A ∧
    (Var.Restore double_t (Var.mk 0 0) scenario_A.memory scenario_A).1
      = .error Fault.assert_failed ∧
    (Var.Restore double_t (Var.mk 0 0) scenario_A.memory
      scenario_A).2.types.length = scenario_A.types.length + 1 ∧
    (Var.Restore int_t (Var.mk 0 0) scenario_A.memory scenario_A).1 = .ok five ∧
    (Var.Restore int_t (Var.mk 0 0) scenario_A.memory scenario_A).2 = scenario_A :=
  have h3 := typed_access_registers scenario_A scenario_A_reachable double_t
    (Var.mk 0 0) scenario_A.memory (VarInfo.mk 0 "x" 0) (by decide) (by decide)
  have h1 := typed_access_registers scenario_A scenario_A_reachable int_t
    (Var.mk 0 0) scenario_A.memory (VarInfo.mk 0 "x" 0) (by decide) (by decide)
  ⟨scenario_A_reachable, (h3.1 (by decide)).1, (h3.1 (by decide)).2.2.1, rfl,
    h1.2.1 0 (by decide)⟩

end Empower

namespace InstLib

theorem char_codes :
    'a'.toNat = 97 ∧ 'z'.toNat = 122 ∧ 'A'.toNat = 65 ∧ 'Z'.toNat = 90 ∧ '0'.toNat = 48 ∧
    '9'.toNat = 57 ∧ '+'.toNat = 43 := by
  decide

/-- C20: instruction symbols round-trip.  For every id below 62, `GetID (GetSymbol id)` is
id and `GetSymbol id` is an ASCII letter or digit; for every ASCII letter or digit c,
`GetSymbol (GetID c)` is c; for every id from 62 on `GetSymbol id` is the plus sign, and
`GetID` of a character that is no ASCII letter or digit is 62. -/
theorem symbols_round_trip :
    (∀ id, id < 62 → GetID (GetSymbol id) = id ∧ letter_or_digit (GetSymbol id)) ∧
    (∀ c, letter_or_digit c → GetSymbol (GetID c) = c) ∧
    (∀ id, 62 ≤ id → GetSymbol id = '+'.toNat) ∧
    (∀ c, ¬ letter_or_digit c → GetID c = 62) := by
  obtain ⟨ha, hz, hA, hZ, h0, h9, hp⟩ := char_codes
  refine ⟨?_, ?_, ?_, ?_⟩
  · intro id hid
    unfold letter_or_digit
    simp only [GetID, GetSymbol, ha, hz, hA, hZ, h0, h9]
    split_ifs <;> omega
  · intro c hc
    unfold letter_or_digit at hc
    simp only [GetID, GetSymbol, ha, hz, hA, hZ, h0, h9] at hc ⊢
    split_ifs <;> omega
  · intro id hid
    simp only [GetSymbol]
    split_ifs <;> omega
  · intro c hc
    unfold letter_or_digit at hc
    simp only [GetID, ha, hz, hA, hZ, h0, h9] at hc ⊢
    split_ifs <;> omega

/-- Id 27 is the symbol B, and the symbol 7 is id 59. -/
theorem symbols_round_trip_witness :
    GetSymbol 27 = 'B'.toNat ∧ GetID (GetSymbol 27) = 27 ∧ GetID '7'.toNat = 59 ∧
    GetSymbol (GetID '7'.toNat) = '7'.toNat ∧ GetSymbol 62 = '+'.toNat ∧
    GetID '+'.toNat = 62 :=
  ⟨by decide, (symbols_round_trip.1 27 (by decide)).1, by decide,
    symbols_round_trip.2.1 _ (Or.inr (Or.inr (by decide))),
    symbols_round_trip.2.2.1 62 (by decide), by decide⟩

end InstLib

end emp
